import Mathlib

/-!
Verification development for the exam-cell-automation backend
(src/backend/server.js).

The JavaScript source is shallowly embedded: spreadsheet rows are modelled
as association lists from column header to cell text, JS numbers appearing
as positive integer counts are modelled as natural numbers, and the
in-place `shuffleArray` calls (which use `Math.random`) are modelled by an
explicit `shuffle` parameter together with the hypothesis that it permutes
its argument.  `Array.prototype.sort` (stable in V8) with the comparators
used by the source is modelled as a stable insertion sort over the
corresponding boolean order.  All definitions are executable.
-/

namespace ExamCell

/-! ### JS-style string primitives -/

/-- Lexicographic strict order on character lists by code point, matching
the JS `<` operator on strings (identical to UTF-16 code-unit order for
strings of basic-plane characters, which is the only kind appearing here). -/
def listCharLt : List Char → List Char → Bool
  | [], [] => false
  | [], _ :: _ => true
  | _ :: _, [] => false
  | a :: as, b :: bs =>
    if a.toNat < b.toNat then true
    else if b.toNat < a.toNat then false
    else listCharLt as bs

/-- JS string comparison `a < b`. -/
def jsStrLt (a b : String) : Bool := listCharLt a.data b.data

/-- Does `pat` occur at the head of `l`? -/
def startsWithChars : List Char → List Char → Bool
  | [], _ => true
  | _ :: _, [] => false
  | a :: as, b :: bs => a == b && startsWithChars as bs

/-- Does `pat` occur as a contiguous substring of `l`? -/
def hasSubChars (pat : List Char) : List Char → Bool
  | [] => pat.isEmpty
  | b :: bs => startsWithChars pat (b :: bs) || hasSubChars pat bs

/-- JS `s.includes(pat)`. -/
def jsIncludes (s pat : String) : Bool := hasSubChars pat.data s.data

/-- JS `s.toLowerCase()` (ASCII range; headers in this system are ASCII). -/
def jsToLower (s : String) : String := (s.data.map Char.toLower).asString

/-- JS `s.toUpperCase()` (ASCII range). -/
def jsToUpper (s : String) : String := (s.data.map Char.toUpper).asString

/-- JS `s.trim()`: strip leading and trailing whitespace. -/
def jsTrim (s : String) : String :=
  (((s.data.dropWhile Char.isWhitespace).reverse.dropWhile Char.isWhitespace).reverse).asString

/-- Stable insertion of `x` into a list that is already sorted by `le`:
`x` goes in front of the first element `y` with `le x y`. -/
def insertLe {α : Type} (le : α → α → Bool) (x : α) : List α → List α
  | [] => [x]
  | y :: ys => if le x y then x :: y :: ys else y :: insertLe le x ys

/-- Stable sort modelling `Array.prototype.sort` (V8 uses a stable sort);
`le a b` means the comparator allows `a` to stay in front of `b`. -/
def stableSort {α : Type} (le : α → α → Bool) : List α → List α
  | [] => []
  | x :: xs => insertLe le x (stableSort le xs)

/-- JS `Math.ceil(a / b)` for nonnegative `a` and positive `b`. -/
def jsCeilDiv (a b : Nat) : Nat := (a + b - 1) / b

/-- JS `String(n).padStart(4, '0')` for a natural number counter. -/
def pad4 (n : Nat) : String :=
  let s := Nat.repr n
  if s.data.length ≥ 4 then s
  else ⟨List.replicate (4 - s.data.length) '0' ++ s.data⟩

/-! ### Rows and cell access

A parsed spreadsheet row (the output of `XLSX.utils.sheet_to_json`) is a
finite map from column header to cell text, modelled as an association
list in column order.  Cell values are modelled as the strings the source
immediately coerces them to. -/

/-- One uploaded row: column header to cell text, in column order. -/
abbrev Row : Type := List (String × String)

/-- JS `String(row[k] || '')` for a key `k`. -/
def getCell (row : Row) (k : String) : String :=
  ((List.find? (fun kv => kv.1 == k) row).map (fun kv => kv.2)).getD ""

/-! ### Record normalizer (server.js lines 48-106) -/

/-- Source `normalizeRegister`: `String(reg).trim().replace(/\s+/g,'').toUpperCase()`;
the trim is subsumed by removing every whitespace character. -/
def normalizeRegister (reg : String) : String :=
  jsToUpper ⟨reg.data.filter (fun c => !c.isWhitespace)⟩

/-- Can the tail after a candidate `'('` finish the regex
`^(.+?)\s*\(\s*([^)]+)\s*\)\s*$`: at least one non-`')'` character, then
`')'`, then only whitespace up to the end of the (pre-trimmed) string? -/
def parenTailOk (rest : List Char) : Bool :=
  match rest.dropWhile (fun d => d ≠ ')') with
  | [] => false
  | _ :: tail =>
    !(rest.takeWhile (fun d => d ≠ ')')).isEmpty && tail.all Char.isWhitespace

/-- Scan for the first `'('` whose tail completes the regex (JS lazy
matching tries candidate positions left to right); on success returns the
prefix before that `'('` and the capture-group characters after it. -/
def parenScanAux : List Char → Option (List Char × List Char)
  | [] => none
  | c :: rest =>
    if c == '(' && parenTailOk rest then
      some ([], rest.takeWhile (fun d => d ≠ ')'))
    else
      match parenScanAux rest with
      | some (l, r) => some (c :: l, r)
      | none => none

/-- The regex `^(.+?)\s*\(\s*([^)]+)\s*\)\s*$` of the source, on a trimmed
string: the group-1 part must be nonempty, so the matched `'('` is at
position at least 1.  (The JS `.` does not match newlines; cell text here
is single-line.) -/
def regexParenMatch : List Char → Option (List Char × List Char)
  | [] => none
  | c :: rest =>
    match parenScanAux rest with
    | some (l, r) => some (c :: l, r)
    | none => none

/-- Helper for the non-regex fallback: split at the last `'('`, returning
the slices before and after it. -/
def lastParenSplit (l : List Char) : Option (List Char × List Char) :=
  match l.reverse.takeWhile (fun d => d ≠ '(') , l.reverse.dropWhile (fun d => d ≠ '(') with
  | _, [] => none
  | afterRev, _ :: beforeRev => some (beforeRev.reverse, afterRev.reverse)

/-- Source `extractFromCombinedCell` (string input, hence never `null`):
prefer the regex match; otherwise, if the trimmed string ends with `')'`,
split at the last `'('`; otherwise the whole string is the left part.
Both parts are trimmed exactly as the source trims the capture groups and
slices. -/
def extractFromCombinedCell (cell : String) : String × String :=
  let s := jsTrim cell
  match regexParenMatch s.data with
  | some (l, r) => (jsTrim ⟨l⟩, jsTrim ⟨r⟩)
  | none =>
    if s.data.getLast? = some ')' then
      match lastParenSplit s.data.dropLast with
      | some (before, after) => (jsTrim ⟨before⟩, jsTrim ⟨after⟩)
      | none => (s, "")
    else (s, "")

/-- Result record of `parseStudentRowRobust`. -/
structure ParsedStudent where
  register_number : String
  student_name : String
  subject_code : String
  subject_name : String
deriving DecidableEq

/-- Column predicate for the combined student column. -/
def studentColHint (k : String) : Bool :=
  let kl := jsToLower k
  kl == "student" || jsIncludes kl "student" || jsIncludes kl "name("

/-- Column predicate for the plain name column. -/
def nameColHint (k : String) : Bool :=
  let kl := jsToLower k
  kl == "name" || jsIncludes kl "student name"

/-- Column predicate for the register-number column. -/
def regColHint (k : String) : Bool :=
  let kl := jsToLower k
  jsIncludes kl "reg" || jsIncludes kl "register" || jsIncludes kl "roll"

/-- Column predicate for the combined course column. -/
def courseColHint (k : String) : Bool :=
  let kl := jsToLower k
  jsIncludes kl "course" || jsIncludes kl "course name" || jsIncludes kl "programme"

/-- Column predicate for the subject column. -/
def subjColHint (k : String) : Bool :=
  let kl := jsToLower k
  jsIncludes kl "sub" || jsIncludes kl "subject" || jsIncludes kl "code"

/-- The fallback scan predicate of `parseStudentRowRobust` (lines 96-101):
the trimmed value is nonempty, at most 8 characters, contains at least one
ASCII alphanumeric character (JS `/[A-Za-z0-9]/.test(v)`), and its column
header does not contain `"name"`. -/
def fallbackSubjectPred (kv : String × String) : Bool :=
  let v := jsTrim kv.2
  v.data ≠ [] && v.data.length ≤ 8 && v.data.any Char.isAlphanum &&
    !(jsIncludes (jsToLower kv.1) "name")

/-- Source `parseStudentRowRobust` (lines 66-106).  The two `else` branches
guarded by `extractFromCombinedCell` returning `null` are unreachable for
defined cell values and are omitted. -/
def parseStudentRowRobust (row : Row) : ParsedStudent :=
  let keys := row.map (fun kv => kv.1)
  let studentCol := keys.find? studentColHint
  let nameCol := keys.find? nameColHint
  let regCol := keys.find? regColHint
  let courseCol := keys.find? courseColHint
  let subjCol := keys.find? subjColHint
  let nameRegDefault : String × String :=
    ((nameCol.map (fun k => jsTrim (getCell row k))).getD "",
     (regCol.map (fun k => jsTrim (getCell row k))).getD "")
  let nameReg : String × String :=
    match studentCol with
    | some k =>
      if jsTrim (getCell row k) ≠ "" then extractFromCombinedCell (getCell row k)
      else nameRegDefault
    | none => nameRegDefault
  let fallbackScan : String × String :=
    ("", ((List.find? fallbackSubjectPred row).map (fun kv => jsTrim kv.2)).getD "")
  let subjPair : String × String :=
    match courseCol with
    | some k =>
      if jsTrim (getCell row k) ≠ "" then extractFromCombinedCell (getCell row k)
      else
        match subjCol with
        | some k2 =>
          if jsTrim (getCell row k2) ≠ "" then extractFromCombinedCell (getCell row k2)
          else fallbackScan
        | none => fallbackScan
    | none =>
      match subjCol with
      | some k2 =>
        if jsTrim (getCell row k2) ≠ "" then extractFromCombinedCell (getCell row k2)
        else fallbackScan
      | none => fallbackScan
  { register_number := normalizeRegister nameReg.2
    student_name := nameReg.1
    subject_code := jsToUpper (jsTrim subjPair.2)
    subject_name := subjPair.1 }

/-! ### Roster reconciler (server.js lines 114-141) -/

/-- Canonical student record persisted by the backend. -/
structure Student where
  register_number : String
  student_name : String
  subject_code : String
deriving DecidableEq

/-- The per-row mapping inside `readStudentsFromFile` (lines 116-122): rows
that already carry any of the canonical fields are taken as-is (normalized),
all other rows go through `parseStudentRowRobust`. -/
def rowToStudent (r : Row) : Student :=
  if getCell r "student_name" ≠ "" ∨ getCell r "register_number" ≠ "" ∨
      getCell r "subject_code" ≠ "" then
    { register_number := normalizeRegister (getCell r "register_number")
      student_name := jsTrim (getCell r "student_name")
      subject_code := jsToUpper (getCell r "subject_code") }
  else
    let p := parseStudentRowRobust r
    { register_number := p.register_number
      student_name := p.student_name
      subject_code := p.subject_code }

/-- The dedup loop of `readStudentsFromFile` (lines 125-131): skip a record
whose nonempty register was already seen; `seen` collects nonempty
registers. -/
def dedupStudents : List Student → List String → List Student
  | [], _ => []
  | s :: rest, seen =>
    if s.register_number ≠ "" ∧ s.register_number ∈ seen then
      dedupStudents rest seen
    else if s.register_number ≠ "" then
      s :: dedupStudents rest (s.register_number :: seen)
    else
      s :: dedupStudents rest seen

/-- The synthetic-identifier loop of `readStudentsFromFile` (lines 132-138):
each record still missing a register receives `SYN` followed by the
4-zero-padded running counter, which starts at 1. -/
def assignSynthetic : Nat → List Student → List Student
  | _, [] => []
  | c, s :: rest =>
    if s.register_number = "" then
      { s with register_number := "SYN" ++ pad4 c } :: assignSynthetic (c + 1) rest
    else
      s :: assignSynthetic c rest

/-- The final sort of `readStudentsFromFile` (line 139), comparator
`(a,b) => a.register_number < b.register_number ? -1 : 1`: a stable sort
into non-decreasing ordinal register order. -/
def sortStudents (l : List Student) : List Student :=
  stableSort (fun a b => !(jsStrLt b.register_number a.register_number)) l

/-- The error-correction pipeline of `readStudentsFromFile` (lines 124-140)
applied to the already-parsed records of one file. -/
def reconcileRoster (parsed : List Student) : List Student :=
  sortStudents (assignSynthetic 1 (dedupStudents parsed []))

/-- Source `readStudentsFromFile`, from the parsed rows of the workbook
(`safeReadWorkbook` is file I/O and is abstracted as the row list). -/
def readStudentsFromFile (raw : List Row) : List Student :=
  reconcileRoster (raw.map rowToStudent)

/-- The `POST /api/upload/students` handler core (lines 271-272): each
uploaded file is read independently and the per-file rosters are
concatenated. -/
def uploadStudents (files : List (List Row)) : List Student :=
  (files.map readStudentsFromFile).flatten

/-! ### Hall list parsing (server.js lines 143-161) -/

/-- Hall record as persisted by `readHallListFromFile`: JS numbers may be
negative or absent, so `benches` is an integer and `rows`/`cols` are
optional integers. -/
structure RawHall where
  hall_id : String
  benches : Int
  rows : Option Int
  cols : Option Int
deriving DecidableEq

/-- JS `parseInt(s, 10)`: skip leading whitespace, optional sign, then the
longest leading digit run; `none` models `NaN`. -/
def jsParseInt (s : String) : Option Int :=
  let t := s.data.dropWhile Char.isWhitespace
  let signAndRest : Int × List Char :=
    match t with
    | '-' :: r => (-1, r)
    | '+' :: r => (1, r)
    | r => (1, r)
  let digs := signAndRest.2.takeWhile Char.isDigit
  if digs.isEmpty then none
  else some (signAndRest.1 * (digs.foldl (fun acc c => acc * 10 + (c.toNat - 48)) 0 : Nat))

/-- Column predicate for the hall-id column. -/
def hallColHint (k : String) : Bool :=
  let kn := jsToLower k
  jsIncludes kn "hall" || jsIncludes kn "class" || jsIncludes kn "room" || jsIncludes kn "id"

/-- Column predicate for the bench-count column. -/
def benchColHint (k : String) : Bool :=
  let kn := jsToLower k
  jsIncludes kn "bench" || jsIncludes kn "seat" || jsIncludes kn "capacity" ||
    jsIncludes kn "benches"

/-- Column predicate for the row-count column. -/
def rowColHint (k : String) : Bool :=
  let kn := jsToLower k
  kn == "rows" || jsIncludes kn "row"

/-- Column predicate for the column-count column. -/
def colColHint (k : String) : Bool :=
  let kn := jsToLower k
  kn == "cols" || jsIncludes kn "col" || jsIncludes kn "column"

/-- The per-row mapping of `readHallListFromFile` (lines 145-159); `i` is
the 0-based row index used for the default hall id. -/
def parseHallRow (defaultBenches : Int) (i : Nat) (r : Row) : RawHall :=
  let keys := r.map (fun kv => kv.1)
  let hallKey := keys.find? hallColHint
  let benchesKey := keys.find? benchColHint
  let rowsKey := keys.find? rowColHint
  let colsKey := keys.find? colColHint
  let hall_id :=
    match hallKey with
    | some k => getCell r k
    | none => "Hall_" ++ Nat.repr (i + 1)
  let benches :=
    match benchesKey with
    | some k =>
      if getCell r k ≠ "" then
        match jsParseInt (getCell r k) with
        | none => defaultBenches
        | some 0 => defaultBenches
        | some v => v
      else defaultBenches
    | none => defaultBenches
  let rows : Option Int :=
    match rowsKey with
    | some k =>
      if getCell r k ≠ "" then
        match jsParseInt (getCell r k) with
        | none => none
        | some 0 => none
        | some v => some v
      else none
    | none => none
  let cols : Option Int :=
    match colsKey with
    | some k =>
      if getCell r k ≠ "" then
        match jsParseInt (getCell r k) with
        | none => none
        | some 0 => none
        | some v => some v
      else none
    | none => none
  { hall_id := hall_id, benches := benches, rows := rows, cols := cols }

/-- The parsed hall records of a file in file order, before sorting. -/
def parsedHallRows (defaultBenches : Int) (raw : List Row) : List RawHall :=
  raw.enum.map (fun p => parseHallRow defaultBenches p.1 p.2)

/-- Source `readHallListFromFile`: parse every row, then sort with
comparator `(a,b) => a.hall_id < b.hall_id ? -1 : 1`, i.e. into
non-decreasing ordinal `hall_id` order. -/
def readHallListFromFile (defaultBenches : Int) (raw : List Row) : List RawHall :=
  stableSort (fun a b => !(jsStrLt b.hall_id a.hall_id)) (parsedHallRows defaultBenches raw)

/-! ### Hall geometry resolution (server.js lines 316-324) -/

/-- A hall definition as built by the `POST /api/allocate` handler, with
both grid dimensions resolved.  The engine reads only `hall_id` and
`benches`. -/
structure Hall where
  hall_id : String
  benches : Nat
  rows : Nat
  cols : Nat
deriving DecidableEq

/-- The geometry resolution of the allocate handler (lines 317-322) for one
hall, on the claim's domain of natural-number inputs: `h.benches || 30`
replaces a missing/zero bench count by 30, and `h.rows || null` /
`h.cols || null` turn a missing or zero dimension into `null` (modelled as
`none`); then the branch policy and the final `rows*cols < benches` fix
are applied exactly as in the source. -/
def resolveHallGeometry (benches0 : Nat) (rows0 cols0 : Option Nat) : Nat × Nat :=
  let benches := if benches0 = 0 then 30 else benches0
  let rowsIn : Option Nat := match rows0 with | some 0 => none | x => x
  let colsIn : Option Nat := match cols0 with | some 0 => none | x => x
  let rc : Nat × Nat :=
    match rowsIn, colsIn with
    | none, none => (jsCeilDiv benches 10, 10)
    | some r, none => (r, jsCeilDiv benches r)
    | none, some c => (jsCeilDiv benches c, c)
    | some r, some c => (r, c)
  if rc.1 * rc.2 < benches then (rc.1, jsCeilDiv benches rc.1) else rc

/-! ### Distribution engine (server.js lines 171-218) -/

/-- The grouping key: `(s.subject_code || '__NONE__')`. -/
def subjKey (s : Student) : String :=
  if s.subject_code = "" then "__NONE__" else s.subject_code

/-- Append a student to its subject group, keeping first-appearance group
order (JS `Map` insertion order). -/
def addToGroups : List (String × List Student) → String → Student → List (String × List Student)
  | [], k, s => [(k, [s])]
  | (k2, l) :: rest, k, s =>
    if k2 = k then (k2, l ++ [s]) :: rest
    else (k2, l) :: addToGroups rest k s

/-- The `bySub` map of `distributeBalanced` (lines 172-177) as an
association list in insertion order. -/
def groupBySubject (students : List Student) : List (String × List Student) :=
  students.foldl (fun g s => addToGroups g (subjKey s) s) []

/-- The `subjects` array (lines 178-180): shuffle each queue, then sort by
descending count, comparator `(a,b) => b.count - a.count` (stable for
ties). -/
def subjectQueues (shuffle : List Student → List Student) (pool : List Student) :
    List (List Student) :=
  (stableSort (fun a b => decide (b.2.length ≤ a.2.length))
      ((groupBySubject pool).map (fun kv => (kv.1, shuffle kv.2)))).map (fun kv => kv.2)

/-- One seat assignment produced by the engine. -/
structure Assignment where
  hall_id : String
  bench_index_in_hall : Nat
  student : Student
deriving DecidableEq

/-- State of the hall-filling loop after a sweep: the updated queues, the
next seat index, the seat array, and the `placed` flag of the sweep. -/
structure SweepState where
  subs : List (List Student)
  idx : Nat
  seats : List (Option Student)
  placed : Bool

/-- One round-robin sweep (the inner `for` of lines 188-194): visit each
queue once in order, and while `idx < cap`, take the head of each nonempty
queue into seat `idx`. -/
def sweepStep (cap : Nat) : List (List Student) → Nat → List (Option Student) → SweepState
  | [], idx, seats => ⟨[], idx, seats, false⟩
  | q :: rest, idx, seats =>
    if idx < cap then
      match q with
      | [] =>
        let r := sweepStep cap rest idx seats
        ⟨[] :: r.subs, r.idx, r.seats, r.placed⟩
      | s :: q2 =>
        let r := sweepStep cap rest (idx + 1) (seats.set idx (some s))
        ⟨q2 :: r.subs, r.idx, r.seats, true⟩
    else ⟨q :: rest, idx, seats, false⟩

/-- The `while (idx < capacity)` loop of lines 186-196: sweep until the
hall is full or a sweep places nobody.  Each productive sweep raises `idx`
by at least 1, so fuel `cap + 1` never runs out. -/
def fillWhile (cap : Nat) : Nat → List (List Student) → Nat → List (Option Student) →
    List (List Student) × List (Option Student)
  | 0, subs, _, seats => (subs, seats)
  | fuel + 1, subs, idx, seats =>
    if idx < cap then
      let r := sweepStep cap subs idx seats
      if r.placed then fillWhile cap fuel r.subs r.idx r.seats
      else (r.subs, r.seats)
    else (subs, seats)

/-- The assignment-emitting loop of lines 197-199: bench `b+1` for every
occupied seat slot `b`, in seat order. -/
def seatsToAssignments (hid : String) : Nat → List (Option Student) → List Assignment
  | _, [] => []
  | b, none :: rest => seatsToAssignments hid (b + 1) rest
  | b, some s :: rest =>
    { hall_id := hid, bench_index_in_hall := b, student := s } :: seatsToAssignments hid (b + 1) rest

/-- Fill one hall (lines 182-200): seats start as `new Array(capacity)` of
nulls and `idx` at 0. -/
def fillHall (subs : List (List Student)) (h : Hall) : List (List Student) × List Assignment :=
  let r := fillWhile h.benches (h.benches + 1) subs 0 (List.replicate h.benches none)
  (r.1, seatsToAssignments h.hall_id 1 r.2)

/-- The per-hall loop (`for (const h of hallDefs)`), threading the queues
and concatenating each hall's assignments in order. -/
def fillHalls : List (List Student) → List Hall → List Assignment × List (List Student)
  | subs, [] => ([], subs)
  | subs, h :: hs =>
    let r := fillHall subs h
    let rest := fillHalls r.1 hs
    (r.2 ++ rest.1, rest.2)

/-- The key string of a position, as in the source's `used` set. -/
def posKey (hid : String) (b : Nat) : String := hid ++ "#" ++ Nat.repr b

/-- All `(hall_id, bench)` positions in hall-then-bench order (line 205). -/
def allPositions (halls : List Hall) : List (String × Nat) :=
  halls.flatMap (fun h => (List.range h.benches).map (fun b => (h.hall_id, b + 1)))

/-- The keys of the already-made assignments (line 206). -/
def usedKeys (asgs : List Assignment) : List String :=
  asgs.map (fun a => posKey a.hall_id a.bench_index_in_hall)

/-- The leftover backfill pass (lines 203-216): walk the positions, skip
used ones, and seat the remaining students in order until either runs
out. -/
def backfillLoop : List (String × Nat) → List Student → List String → List Assignment
  | [], _, _ => []
  | _ :: _, [], _ => []
  | p :: ps, s :: rest, used =>
    if posKey p.1 p.2 ∈ used then backfillLoop ps (s :: rest) used
    else
      { hall_id := p.1, bench_index_in_hall := p.2, student := s } ::
        backfillLoop ps rest (posKey p.1 p.2 :: used)

/-- The primary (round-robin) pass of `distributeBalanced`: the per-hall
assignments and the leftover queues. -/
def primaryPass (shuffle : List Student → List Student) (studentsArr : List Student)
    (hallDefs : List Hall) : List Assignment × List (List Student) :=
  fillHalls (subjectQueues shuffle studentsArr) hallDefs

/-- Source `distributeBalanced` (lines 171-218).  `remaining` drains the
leftover queues in subject order; the source's `if (remaining.length > 0)`
guard is omitted because the backfill loop returns nothing on an empty
`remaining` anyway. -/
def distributeBalanced (shuffle : List Student → List Student) (studentsArr : List Student)
    (hallDefs : List Hall) : List Assignment :=
  let pr := primaryPass shuffle studentsArr hallDefs
  pr.1 ++ backfillLoop (allPositions hallDefs) pr.2.flatten (usedKeys pr.1)

/-! ### Odd-bench (alternate) allocator branch (server.js lines 341-347) -/

/-- A final assignment after bench remapping, keyed by physical bench. -/
structure BenchAssignment where
  hall_id : String
  bench_number : Nat
  student : Student
deriving DecidableEq

/-- The hall transform of the odd allocator: halve benches and cols by
ceiling; rows are kept. -/
def oddHallTransform (h : Hall) : Hall :=
  { hall_id := h.hall_id, benches := jsCeilDiv h.benches 2, rows := h.rows,
    cols := jsCeilDiv h.cols 2 }

/-- The allocator branch taken when `allocator` is unset or `'odd'`
(lines 341-344 and 355-358): shuffle the pool, distribute over the
transformed halls, then remap assigned bench `i` to physical bench
`(i-1)*2 + 1`. -/
def allocateOddLayout (shuffle : List Student → List Student) (pool : List Student)
    (hallDefs : List Hall) : List BenchAssignment :=
  let oddDefs := hallDefs.map oddHallTransform
  (distributeBalanced shuffle (shuffle pool) oddDefs).map
    (fun x => { hall_id := x.hall_id, bench_number := (x.bench_index_in_hall - 1) * 2 + 1,
                student := x.student })

/-! ### Order facts for the JS string comparator -/

theorem listCharLt_irrefl : ∀ l, listCharLt l l = false := by
  intro l
  induction l with
  | nil => rfl
  | cons a as ih => simp [listCharLt, ih]

theorem listCharLt_trans :
    ∀ a b c, listCharLt a b = true → listCharLt b c = true → listCharLt a c = true := by
  intro a
  induction a with
  | nil =>
    intro b c hab hbc
    cases b with
    | nil => simp [listCharLt] at hab
    | cons y ys =>
      cases c with
      | nil => simp [listCharLt] at hbc
      | cons z zs => simp [listCharLt]
  | cons x xs ih =>
    intro b c hab hbc
    cases b with
    | nil => simp [listCharLt] at hab
    | cons y ys =>
      cases c with
      | nil => simp [listCharLt] at hbc
      | cons z zs =>
        simp only [listCharLt] at hab hbc ⊢
        rcases Nat.lt_trichotomy x.toNat y.toNat with hxy | hxy | hxy
        · rcases Nat.lt_trichotomy y.toNat z.toNat with hyz | hyz | hyz
          · simp [Nat.lt_trans hxy hyz]
          · simp [show x.toNat < z.toNat by omega]
          · simp [show ¬ y.toNat < z.toNat by omega, hyz] at hbc
        · rcases Nat.lt_trichotomy y.toNat z.toNat with hyz | hyz | hyz
          · simp [show x.toNat < z.toNat by omega]
          · have h1 : ¬ x.toNat < y.toNat := by omega
            have h2 : ¬ y.toNat < x.toNat := by omega
            simp only [h1, if_false, h2] at hab
            have h3 : ¬ y.toNat < z.toNat := by omega
            have h4 : ¬ z.toNat < y.toNat := by omega
            simp only [h3, if_false, h4] at hbc
            simp only [show ¬ x.toNat < z.toNat by omega, if_false,
              show ¬ z.toNat < x.toNat by omega]
            exact ih ys zs hab hbc
          · simp [show ¬ y.toNat < z.toNat by omega, hyz] at hbc
        · simp [show ¬ x.toNat < y.toNat by omega, hxy] at hab

theorem listCharLt_conn :
    ∀ a b, listCharLt a b = false → listCharLt b a = false → a = b := by
  intro a
  induction a with
  | nil =>
    intro b hab _
    cases b with
    | nil => rfl
    | cons y ys => simp [listCharLt] at hab
  | cons x xs ih =>
    intro b hab hba
    cases b with
    | nil => simp [listCharLt] at hba
    | cons y ys =>
      simp only [listCharLt] at hab hba
      by_cases hxy : x.toNat < y.toNat
      · simp [hxy] at hab
      · by_cases hyx : y.toNat < x.toNat
        · simp [hyx, hxy] at hba
        · have hn : x.toNat = y.toNat := by omega
          have hxeq : x = y := by
            apply Char.ext
            apply UInt32.ext
            exact hn
          subst hxeq
          simp only [hxy, if_false] at hab hba
          rw [ih ys hab hba]

theorem jsStrLt_irrefl (a : String) : jsStrLt a a = false := listCharLt_irrefl a.data

theorem jsStrLt_trans {a b c : String} (h1 : jsStrLt a b = true) (h2 : jsStrLt b c = true) :
    jsStrLt a c = true := listCharLt_trans a.data b.data c.data h1 h2

theorem jsStrLt_conn {a b : String} (h1 : jsStrLt a b = false) (h2 : jsStrLt b a = false) :
    a = b := by
  cases a; cases b
  exact congrArg String.mk (listCharLt_conn _ _ h1 h2)

/-! ### Stable-sort facts -/

theorem insertLe_perm {α : Type} (le : α → α → Bool) (x : α) :
    ∀ l : List α, (insertLe le x l).Perm (x :: l) := by
  intro l
  induction l with
  | nil => exact List.Perm.refl _
  | cons y ys ih =>
    simp only [insertLe]
    by_cases h : le x y = true
    · simp [h]
    · simp only [h, if_false]
      exact (ih.cons y).trans (List.Perm.swap x y ys)

theorem stableSort_perm {α : Type} (le : α → α → Bool) :
    ∀ l : List α, (stableSort le l).Perm l := by
  intro l
  induction l with
  | nil => exact List.Perm.refl _
  | cons x xs ih => exact (insertLe_perm le x (stableSort le xs)).trans (ih.cons x)

theorem insertLe_pairwise {α : Type} {le : α → α → Bool}
    (htot : ∀ a b, le a b = true ∨ le b a = true)
    (htrans : ∀ a b c, le a b = true → le b c = true → le a c = true) (x : α) :
    ∀ l : List α, l.Pairwise (fun a b => le a b = true) →
      (insertLe le x l).Pairwise (fun a b => le a b = true) := by
  intro l
  induction l with
  | nil => intro _; simp [insertLe]
  | cons y ys ih =>
    intro hp
    rw [List.pairwise_cons] at hp
    simp only [insertLe]
    by_cases h : le x y = true
    · simp only [h, if_true]
      refine List.Pairwise.cons ?_ (List.Pairwise.cons hp.1 hp.2)
      intro z hz
      rcases List.mem_cons.mp hz with rfl | hz2
      · exact h
      · exact htrans x y z h (hp.1 z hz2)
    · simp only [h, if_false]
      refine List.Pairwise.cons ?_ (ih hp.2)
      intro z hz
      have hz3 := (insertLe_perm le x ys).mem_iff.mp hz
      rcases List.mem_cons.mp hz3 with rfl | hz4
      · rcases htot y z with hyz | hzy
        · exact hyz
        · exact absurd hzy h
      · exact hp.1 z hz4

theorem stableSort_pairwise {α : Type} {le : α → α → Bool}
    (htot : ∀ a b, le a b = true ∨ le b a = true)
    (htrans : ∀ a b c, le a b = true → le b c = true → le a c = true) :
    ∀ l : List α, (stableSort le l).Pairwise (fun a b => le a b = true) := by
  intro l
  induction l with
  | nil => simp [stableSort]
  | cons x xs ih => exact insertLe_pairwise htot htrans x _ ih

/-- Totality of the register / hall-id comparator order. -/
theorem notLt_total (f : String) : ∀ g : String, (!jsStrLt g f) = true ∨ (!jsStrLt f g) = true := by
  intro g
  by_cases h : jsStrLt g f = true
  · right
    by_cases h2 : jsStrLt f g = true
    · have := jsStrLt_trans h h2
      rw [jsStrLt_irrefl] at this
      exact absurd this (by simp)
    · simp [h2]
  · left
    simp [h]

/-- Transitivity of the register / hall-id comparator order. -/
theorem notLt_trans {a b c : String} (h1 : (!jsStrLt b a) = true) (h2 : (!jsStrLt c b) = true) :
    (!jsStrLt c a) = true := by
  simp only [Bool.not_eq_true', Bool.not_eq_true] at h1 h2 ⊢
  by_cases hca : jsStrLt c a = true
  · by_cases hbc : jsStrLt b c = true
    · have := jsStrLt_trans hbc hca
      rw [this] at h1
      exact absurd h1 (by simp)
    · have hbc' : b = c := jsStrLt_conn (by simpa using hbc) h2
      subst hbc'
      rw [hca] at h1
      exact absurd h1 (by simp)
  · simpa using hca

/-! ### Claim C3: hall geometry resolution -/

theorem jsCeilDiv_mul_ge (b r : Nat) (hr : 0 < r) : b ≤ r * jsCeilDiv b r := by
  have hdm := Nat.div_add_mod (b + r - 1) r
  have hm : (b + r - 1) % r < r := Nat.mod_lt _ hr
  unfold jsCeilDiv
  omega

theorem jsCeilDiv_pos (b r : Nat) (hb : 0 < b) (hr : 0 < r) : 0 < jsCeilDiv b r := by
  unfold jsCeilDiv
  have h1 : 1 * r ≤ b + r - 1 := by omega
  exact (Nat.le_div_iff_mul_le hr).mpr h1

/-- The final `rows*cols < benches` fix of the resolver keeps the capacity
invariant whenever the row count is positive. -/
theorem resolveFix_ge (b r c : Nat) (hr : 0 < r) (hc : b ≤ r * c ∨ c = jsCeilDiv b r) :
    b ≤ (if r * c < b then (r, jsCeilDiv b r) else (r, c)).1 *
        (if r * c < b then (r, jsCeilDiv b r) else (r, c)).2 := by
  split
  · simpa using jsCeilDiv_mul_ge b r hr
  · rcases hc with h | h
    · simpa using h
    · subst h
      simpa using jsCeilDiv_mul_ge b r hr

/-- Claim C3: for every hall definition with positive benches and optional
rows/cols, the allocate handler's geometry resolution yields dimensions
with `rows * cols >= benches`, and follows the stated policy: neither
given, `cols = 10` and `rows = ceil(benches/10)`; only rows given,
`cols = ceil(benches/rows)`; only cols given, `rows = ceil(benches/cols)`;
both given with `rows*cols < benches`, cols is recomputed as
`ceil(benches/rows)` (and otherwise both are kept). -/
theorem geometry_resolution_policy (b : Nat) (hb : 0 < b) (rows0 cols0 : Option Nat) :
    b ≤ (resolveHallGeometry b rows0 cols0).1 * (resolveHallGeometry b rows0 cols0).2 ∧
    resolveHallGeometry b none none = (jsCeilDiv b 10, 10) ∧
    (∀ r, 0 < r → resolveHallGeometry b (some r) none = (r, jsCeilDiv b r)) ∧
    (∀ c, 0 < c → resolveHallGeometry b none (some c) = (jsCeilDiv b c, c)) ∧
    (∀ r c, 0 < r → 0 < c → b ≤ r * c → resolveHallGeometry b (some r) (some c) = (r, c)) ∧
    (∀ r c, 0 < r → 0 < c → r * c < b → resolveHallGeometry b (some r) (some c) =
      (r, jsCeilDiv b r)) := by
  have hb' : b ≠ 0 := hb.ne'
  have hccfix : ∀ r, 0 < r → ¬ (r * jsCeilDiv b r < b) := by
    intro r hr
    have := jsCeilDiv_mul_ge b r hr
    omega
  refine ⟨?_, ?_, ?_, ?_, ?_, ?_⟩
  · rcases rows0 with _ | r
    · rcases cols0 with _ | c
      · simp only [resolveHallGeometry, hb', if_false]
        exact resolveFix_ge b (jsCeilDiv b 10) 10 (jsCeilDiv_pos b 10 hb (by omega))
          (Or.inl (by simpa [Nat.mul_comm] using jsCeilDiv_mul_ge b 10 (by omega)))
      · rcases c with _ | c
        · simp only [resolveHallGeometry, hb', if_false]
          exact resolveFix_ge b (jsCeilDiv b 10) 10 (jsCeilDiv_pos b 10 hb (by omega))
            (Or.inl (by simpa [Nat.mul_comm] using jsCeilDiv_mul_ge b 10 (by omega)))
        · simp only [resolveHallGeometry, hb', if_false]
          exact resolveFix_ge b (jsCeilDiv b (c + 1)) (c + 1)
            (jsCeilDiv_pos b (c + 1) hb (by omega))
            (Or.inl (by simpa [Nat.mul_comm] using jsCeilDiv_mul_ge b (c + 1) (by omega)))
    · rcases r with _ | r
      · rcases cols0 with _ | c
        · simp only [resolveHallGeometry, hb', if_false]
          exact resolveFix_ge b (jsCeilDiv b 10) 10 (jsCeilDiv_pos b 10 hb (by omega))
            (Or.inl (by simpa [Nat.mul_comm] using jsCeilDiv_mul_ge b 10 (by omega)))
        · rcases c with _ | c
          · simp only [resolveHallGeometry, hb', if_false]
            exact resolveFix_ge b (jsCeilDiv b 10) 10 (jsCeilDiv_pos b 10 hb (by omega))
              (Or.inl (by simpa [Nat.mul_comm] using jsCeilDiv_mul_ge b 10 (by omega)))
          · simp only [resolveHallGeometry, hb', if_false]
            exact resolveFix_ge b (jsCeilDiv b (c + 1)) (c + 1)
              (jsCeilDiv_pos b (c + 1) hb (by omega))
              (Or.inl (by simpa [Nat.mul_comm] using jsCeilDiv_mul_ge b (c + 1) (by omega)))
      · rcases cols0 with _ | c
        · simp only [resolveHallGeometry, hb', if_false]
          exact resolveFix_ge b (r + 1) (jsCeilDiv b (r + 1)) (by omega) (Or.inr rfl)
        · rcases c with _ | c
          · simp only [resolveHallGeometry, hb', if_false]
            exact resolveFix_ge b (r + 1) (jsCeilDiv b (r + 1)) (by omega) (Or.inr rfl)
          · simp only [resolveHallGeometry, hb', if_false]
            by_cases h : (r + 1) * (c + 1) < b
            · have h2 := jsCeilDiv_mul_ge b (r + 1) (by omega)
              simp only [h, if_true]
              simpa using h2
            · simp only [h, if_false]
              simpa using Nat.le_of_not_lt h
  · simp only [resolveHallGeometry, hb', if_false]
    have h : ¬ (jsCeilDiv b 10 * 10 < b) := by
      have := jsCeilDiv_mul_ge b 10 (by omega)
      omega
    simp [h]
  · intro r hr
    rcases r with _ | r
    · omega
    · simp only [resolveHallGeometry, hb', if_false]
      have h : ¬ ((r + 1) * jsCeilDiv b (r + 1) < b) := hccfix (r + 1) (by omega)
      simp [h]
  · intro c hc
    rcases c with _ | c
    · omega
    · simp only [resolveHallGeometry, hb', if_false]
      have h : ¬ (jsCeilDiv b (c + 1) * (c + 1) < b) := by
        have h1 := jsCeilDiv_mul_ge b (c + 1) (by omega)
        have h2 : jsCeilDiv b (c + 1) * (c + 1) = (c + 1) * jsCeilDiv b (c + 1) :=
          Nat.mul_comm _ _
        omega
      simp [h]
  · intro r c hr hc hge
    rcases r with _ | r
    · omega
    · rcases c with _ | c
      · omega
      · simp only [resolveHallGeometry, hb', if_false]
        have h : ¬ ((r + 1) * (c + 1) < b) := by omega
        simp [h]
  · intro r c hr hc hlt
    rcases r with _ | r
    · omega
    · rcases c with _ | c
      · omega
      · simp only [resolveHallGeometry, hb', if_false]
        simp [hlt]

/-- Witness for C3 at a concrete input: 25 benches, both dimensions given
as 4, so `4*4 < 25` forces `cols = ceil(25/4) = 7`. -/
theorem geometry_resolution_policy_witness :
    0 < 25 ∧ resolveHallGeometry 25 (some 4) (some 4) = (4, 7) := by
  refine ⟨by decide, ?_⟩
  have h := (geometry_resolution_policy 25 (by decide) (some 4) (some 4)).2.2.2.2.2
  have h2 := h 4 4 (by decide) (by decide) (by decide)
  simpa [jsCeilDiv] using h2


/-! ### Engine invariants: assignment blocks and seat arrays -/

/-- The assignments a hall with id `hid` emits for students `l` seated
contiguously from bench `b`. -/
def mkAsgs (hid : String) : Nat → List Student → List Assignment
  | _, [] => []
  | b, s :: rest =>
    { hall_id := hid, bench_index_in_hall := b, student := s } :: mkAsgs hid (b + 1) rest

theorem mkAsgs_length (hid : String) :
    ∀ (b : Nat) (l : List Student), (mkAsgs hid b l).length = l.length := by
  intro b l
  induction l generalizing b with
  | nil => rfl
  | cons s rest ih => simp [mkAsgs, ih]

theorem mkAsgs_map_bench (hid : String) :
    ∀ (b : Nat) (l : List Student),
      (mkAsgs hid b l).map (fun a => a.bench_index_in_hall) = List.range' b l.length := by
  intro b l
  induction l generalizing b with
  | nil => rfl
  | cons s rest ih => simp [mkAsgs, ih, List.range'_succ]

theorem mkAsgs_map_student (hid : String) :
    ∀ (b : Nat) (l : List Student), (mkAsgs hid b l).map (fun a => a.student) = l := by
  intro b l
  induction l generalizing b with
  | nil => rfl
  | cons s rest ih => simp [mkAsgs, ih]

theorem mkAsgs_map_pair (hid : String) :
    ∀ (b : Nat) (l : List Student),
      (mkAsgs hid b l).map (fun a => (a.hall_id, a.bench_index_in_hall)) =
        (List.range' b l.length).map (fun n => (hid, n)) := by
  intro b l
  induction l generalizing b with
  | nil => rfl
  | cons s rest ih => simp [mkAsgs, ih, List.range'_succ]

theorem mkAsgs_mem (hid : String) :
    ∀ (b : Nat) (l : List Student) (a : Assignment), a ∈ mkAsgs hid b l →
      a.hall_id = hid ∧ b ≤ a.bench_index_in_hall ∧ a.bench_index_in_hall < b + l.length := by
  intro b l
  induction l generalizing b with
  | nil => intro a ha; simp [mkAsgs] at ha
  | cons s rest ih =>
    intro a ha
    rcases List.mem_cons.mp ha with rfl | ha2
    · simp
    · have h := ih (b + 1) a ha2
      refine ⟨h.1, by omega, by simpa [Nat.add_assoc, Nat.add_comm 1 rest.length] using h.2.2⟩

theorem usedKeys_mkAsgs (hid : String) :
    ∀ (b : Nat) (l : List Student),
      usedKeys (mkAsgs hid b l) = (List.range' b l.length).map (posKey hid) := by
  intro b l
  induction l generalizing b with
  | nil => rfl
  | cons s rest ih => simp [mkAsgs, usedKeys, List.range'_succ] at ih ⊢; exact ih (b + 1)

/-- The seat array after `filled` students have been seated contiguously in
a hall of capacity `cap`. -/
def seatsOf (cap : Nat) (filled : List Student) : List (Option Student) :=
  filled.map some ++ List.replicate (cap - filled.length) none

theorem seatsOf_nil (cap : Nat) : seatsOf cap [] = List.replicate cap none := by
  simp [seatsOf]

theorem seatsOf_set (cap : Nat) (filled : List Student) (s : Student)
    (h : filled.length < cap) :
    (seatsOf cap filled).set filled.length (some s) = seatsOf cap (filled ++ [s]) := by
  unfold seatsOf
  rw [List.set_append]
  have h1 : ¬ (filled.length < (filled.map some).length) := by simp
  rw [if_neg h1]
  have h2 : filled.length - (filled.map some).length = 0 := by simp
  rw [h2]
  rcases hcl : cap - filled.length with _ | m
  · omega
  · have h3 : cap - (filled ++ [s]).length = m := by simp; omega
    rw [h3, List.replicate_succ, List.set_cons_zero]
    simp

theorem seatsToAssignments_replicate (hid : String) :
    ∀ (b m : Nat), seatsToAssignments hid b (List.replicate m none) = [] := by
  intro b m
  induction m generalizing b with
  | zero => rfl
  | succ m ih => rw [List.replicate_succ]; simpa [seatsToAssignments] using ih (b + 1)

theorem seatsToAssignments_seatsOf (hid : String) :
    ∀ (l : List Student) (b cap : Nat),
      seatsToAssignments hid b (l.map some ++ List.replicate cap none) = mkAsgs hid b l := by
  intro l
  induction l with
  | nil => intro b cap; simpa [mkAsgs] using seatsToAssignments_replicate hid b cap
  | cons s rest ih => intro b cap; simp [seatsToAssignments, mkAsgs, ih]

/-- Two queues hold no common subject key. -/
def subjDisjoint (q1 q2 : List Student) : Prop :=
  ∀ s1 ∈ q1, ∀ s2 ∈ q2, subjKey s1 ≠ subjKey s2

/-- Full characterization of one round-robin sweep over the subject queues,
starting from a contiguously filled seat array: the sweep seats some list
`taken` of students contiguously after `filled`, within capacity; `taken`
and the updated queues repartition the old queues; a sweep that places
nobody leaves everything unchanged and (when under capacity) certifies all
queues empty; and when the queues are pairwise subject-disjoint, the
students taken in one sweep have pairwise distinct subject keys. -/
theorem sweepStep_spec (cap : Nat) :
    ∀ (subs : List (List Student)) (filled : List Student), filled.length ≤ cap →
      ∃ taken : List Student,
        (sweepStep cap subs filled.length (seatsOf cap filled)).idx =
          filled.length + taken.length ∧
        filled.length + taken.length ≤ cap ∧
        (sweepStep cap subs filled.length (seatsOf cap filled)).seats =
          seatsOf cap (filled ++ taken) ∧
        (taken ++ (sweepStep cap subs filled.length (seatsOf cap filled)).subs.flatten).Perm
          subs.flatten ∧
        ((sweepStep cap subs filled.length (seatsOf cap filled)).placed = false →
          taken = [] ∧ (sweepStep cap subs filled.length (seatsOf cap filled)).subs = subs ∧
          (filled.length < cap → ∀ q ∈ subs, q = [])) ∧
        ((sweepStep cap subs filled.length (seatsOf cap filled)).placed = true →
          taken ≠ []) ∧
        (List.Pairwise subjDisjoint subs →
          List.Pairwise subjDisjoint
            (sweepStep cap subs filled.length (seatsOf cap filled)).subs ∧
          taken.Pairwise (fun s1 s2 => subjKey s1 ≠ subjKey s2)) := by
  intro subs
  induction subs with
  | nil =>
    intro filled hle
    refine ⟨[], ?_⟩
    simp [sweepStep, hle]
  | cons q rest ih =>
    intro filled hle
    by_cases hlt : filled.length < cap
    · cases q with
      | nil =>
        obtain ⟨taken, hidx, htle, hseats, hperm, hpf, hpt, hpair⟩ := ih filled hle
        refine ⟨taken, ?_, htle, ?_, ?_, ?_, ?_, ?_⟩
        · simp [sweepStep, hlt, hidx]
        · simp [sweepStep, hlt, hseats]
        · simpa [sweepStep, hlt] using hperm
        · intro hp
          simp only [sweepStep, hlt, if_true] at hp
          obtain ⟨ht, hs, hq⟩ := hpf hp
          refine ⟨ht, ?_, ?_⟩
          · simp [sweepStep, hlt, hs]
          · intro _ q' hq'
            rcases List.mem_cons.mp hq' with rfl | hq2
            · rfl
            · exact hq hlt q' hq2
        · intro hp
          simp only [sweepStep, hlt, if_true] at hp
          exact hpt hp
        · intro hd
          rw [List.pairwise_cons] at hd
          obtain ⟨hsub, htk⟩ := hpair hd.2
          refine ⟨?_, htk⟩
          simp only [sweepStep, hlt, if_true]
          rw [List.pairwise_cons]
          refine ⟨?_, hsub⟩
          intro q' _ s1 hs1
          simp at hs1
      | cons s q2 =>
        have hle2 : (filled ++ [s]).length ≤ cap := by simp; omega
        obtain ⟨taken, hidx, htle, hseats, hperm, hpf, hpt, hpair⟩ := ih (filled ++ [s]) hle2
        have hset : (seatsOf cap filled).set filled.length (some s) =
            seatsOf cap (filled ++ [s]) := seatsOf_set cap filled s hlt
        have hlen1 : (filled ++ [s]).length = filled.length + 1 := by simp
        rw [hlen1] at hidx htle hseats hperm hpf hpt hpair
        refine ⟨s :: taken, ?_, ?_, ?_, ?_, ?_, ?_, ?_⟩
        · simp only [sweepStep, hlt, if_true, hset]
          rw [hidx]
          simp only [List.length_cons]
          omega
        · simp only [List.length_cons]
          omega
        · simp only [sweepStep, hlt, if_true, hset]
          rw [hseats]
          simp [List.append_assoc]
        · simp only [sweepStep, hlt, if_true, hset, List.flatten_cons, List.cons_append]
          refine List.Perm.cons s ?_
          have e1 : taken ++ (q2 ++ (sweepStep cap rest (filled.length + 1)
              (seatsOf cap (filled ++ [s]))).subs.flatten) =
              (taken ++ q2) ++ (sweepStep cap rest (filled.length + 1)
              (seatsOf cap (filled ++ [s]))).subs.flatten := by
            rw [List.append_assoc]
          rw [e1]
          refine (List.Perm.append_right _ List.perm_append_comm).trans ?_
          rw [List.append_assoc]
          exact List.Perm.append_left q2 hperm
        · intro hp
          simp only [sweepStep, hlt, if_true] at hp
          exact absurd hp (by decide)
        · intro _
          simp
        · intro hd
          rw [List.pairwise_cons] at hd
          simp only [sweepStep, hlt, if_true, hset]
          have hrest := hpair hd.2
          have hflat : ∀ t ∈ (sweepStep cap rest (filled.length + 1)
              (seatsOf cap (filled ++ [s]))).subs.flatten, t ∈ rest.flatten := by
            intro t ht
            have h2 : t ∈ taken ++ (sweepStep cap rest (filled.length + 1)
                (seatsOf cap (filled ++ [s]))).subs.flatten := by
              simp [ht]
            exact hperm.mem_iff.mp h2
          have htaken : ∀ t ∈ taken, t ∈ rest.flatten := by
            intro t ht
            have h2 : t ∈ taken ++ (sweepStep cap rest (filled.length + 1)
                (seatsOf cap (filled ++ [s]))).subs.flatten := by
              simp [ht]
            exact hperm.mem_iff.mp h2
          have hdisj : ∀ t ∈ rest.flatten, ∀ s1 ∈ s :: q2, subjKey s1 ≠ subjKey t := by
            intro t ht s1 hs1
            obtain ⟨q3, hq3, ht2⟩ := List.mem_flatten.mp ht
            exact hd.1 q3 hq3 s1 hs1 t ht2
          refine ⟨?_, ?_⟩
          · rw [List.pairwise_cons]
            refine ⟨?_, hrest.1⟩
            intro q3 hq3 s1 hs1 s2 hs2
            have hs2f : s2 ∈ rest.flatten :=
              hflat s2 (List.mem_flatten.mpr ⟨q3, hq3, hs2⟩)
            exact hdisj s2 hs2f s1 (by simp [hs1])
          · rw [List.pairwise_cons]
            refine ⟨?_, hrest.2⟩
            intro t ht
            exact hdisj t (htaken t ht) s (by simp)
    · refine ⟨[], ?_⟩
      simp [sweepStep, hlt]
      exact hle

/-- Full characterization of the hall-filling loop: starting from a
contiguous fill, it seats some further students `taken` contiguously,
within capacity, repartitioning the queues, and it stops only with the
hall full or every queue empty.  The fuel bound `cap - filled.length <
fuel` is satisfied by the source's implicit bound (each productive sweep
seats at least one student). -/
theorem fillWhile_spec (cap : Nat) :
    ∀ (fuel : Nat) (subs : List (List Student)) (filled : List Student),
      filled.length ≤ cap → cap - filled.length < fuel →
      ∃ taken : List Student,
        (fillWhile cap fuel subs filled.length (seatsOf cap filled)).2 =
          seatsOf cap (filled ++ taken) ∧
        filled.length + taken.length ≤ cap ∧
        (taken ++ (fillWhile cap fuel subs filled.length (seatsOf cap filled)).1.flatten).Perm
          subs.flatten ∧
        (filled.length + taken.length = cap ∨
          ∀ q ∈ (fillWhile cap fuel subs filled.length (seatsOf cap filled)).1, q = []) := by
  intro fuel
  induction fuel with
  | zero => intro subs filled hle hfuel; omega
  | succ fuel ih =>
    intro subs filled hle hfuel
    by_cases hlt : filled.length < cap
    · obtain ⟨taken1, hidx, htle, hseats, hperm, hpf, hpt, _⟩ := sweepStep_spec cap subs filled hle
      by_cases hp : (sweepStep cap subs filled.length (seatsOf cap filled)).placed = true
      · have htk1 : taken1 ≠ [] := hpt hp
        have htk1len : 1 ≤ taken1.length := by
          cases taken1 with
          | nil => exact absurd rfl htk1
          | cons a b => simp
        have hle2 : (filled ++ taken1).length ≤ cap := by simp; omega
        have hfuel2 : cap - (filled ++ taken1).length < fuel := by simp; omega
        obtain ⟨taken2, hseats2, htle2, hperm2, hstop2⟩ := ih
          (sweepStep cap subs filled.length (seatsOf cap filled)).subs (filled ++ taken1)
          hle2 hfuel2
        have hlen2 : (filled ++ taken1).length = filled.length + taken1.length := by simp
        rw [hlen2] at hseats2 htle2 hperm2 hstop2
        have hgoal : fillWhile cap (fuel + 1) subs filled.length (seatsOf cap filled) =
            fillWhile cap fuel (sweepStep cap subs filled.length (seatsOf cap filled)).subs
              (filled.length + taken1.length) (seatsOf cap (filled ++ taken1)) := by
          simp only [fillWhile, hlt, if_true, hp, hidx, hseats]
        refine ⟨taken1 ++ taken2, ?_, ?_, ?_, ?_⟩
        · rw [hgoal, hseats2]
          simp [List.append_assoc]
        · simp only [List.length_append]
          omega
        · rw [hgoal]
          have e1 : (taken1 ++ taken2) ++ (fillWhile cap fuel
              (sweepStep cap subs filled.length (seatsOf cap filled)).subs
              (filled.length + taken1.length) (seatsOf cap (filled ++ taken1))).1.flatten =
              taken1 ++ (taken2 ++ (fillWhile cap fuel
              (sweepStep cap subs filled.length (seatsOf cap filled)).subs
              (filled.length + taken1.length) (seatsOf cap (filled ++ taken1))).1.flatten) := by
            rw [List.append_assoc]
          rw [e1]
          exact ((List.Perm.append_left taken1 hperm2).trans hperm)
        · rw [hgoal]
          rcases hstop2 with h | h
          · left
            simp only [List.length_append]
            omega
          · right
            exact h
      · have hp2 : (sweepStep cap subs filled.length (seatsOf cap filled)).placed = false := by
          simpa using hp
        obtain ⟨htk, hsubs, hempty⟩ := hpf hp2
        subst htk
        refine ⟨[], ?_, ?_, ?_, ?_⟩
        · simp only [fillWhile, hlt, if_true, hp2, if_false, Bool.false_eq_true, hseats]
        · simpa using hle
        · simp only [fillWhile, hlt, if_true, hp2, if_false, Bool.false_eq_true, hsubs]
          simp
        · right
          simp only [fillWhile, hlt, if_true, hp2, if_false, Bool.false_eq_true, hsubs]
          exact hempty hlt
    · refine ⟨[], ?_, ?_, ?_, ?_⟩
      · simp [fillWhile, hlt]
      · simpa using hle
      · simp [fillWhile, hlt]
      · left
        simp
        omega

/-- Per-hall corollary: filling one hall emits exactly the assignments of
some contiguously seated `taken`, benches `1..taken.length`. -/
theorem fillHall_spec (subs : List (List Student)) (h : Hall) :
    ∃ taken : List Student,
      (fillHall subs h).2 = mkAsgs h.hall_id 1 taken ∧
      taken.length ≤ h.benches ∧
      (taken ++ (fillHall subs h).1.flatten).Perm subs.flatten ∧
      (taken.length = h.benches ∨ ∀ q ∈ (fillHall subs h).1, q = []) := by
  have h0 : (([] : List Student)).length ≤ h.benches := by simp
  have hf : h.benches - (([] : List Student)).length < h.benches + 1 := by simp
  obtain ⟨taken, hseats, htle, hperm, hstop⟩ := fillWhile_spec h.benches (h.benches + 1) subs [] h0 hf
  refine ⟨taken, ?_, by simpa using htle, ?_, ?_⟩
  · show seatsToAssignments h.hall_id 1
      (fillWhile h.benches (h.benches + 1) subs 0 (List.replicate h.benches none)).2 = _
    have e0 : (List.replicate h.benches none : List (Option Student)) = seatsOf h.benches [] :=
      (seatsOf_nil h.benches).symm
    have e1 : (0 : Nat) = (([] : List Student)).length := rfl
    rw [e0, e1, hseats]
    simp only [List.nil_append, seatsOf]
    exact seatsToAssignments_seatsOf h.hall_id taken 1 _
  · show (taken ++ (fillWhile h.benches (h.benches + 1) subs 0
      (List.replicate h.benches none)).1.flatten).Perm subs.flatten
    have e0 : (List.replicate h.benches none : List (Option Student)) = seatsOf h.benches [] :=
      (seatsOf_nil h.benches).symm
    have e1 : (0 : Nat) = (([] : List Student)).length := rfl
    rw [e0, e1]
    exact hperm
  · show taken.length = h.benches ∨ ∀ q ∈ (fillWhile h.benches (h.benches + 1) subs 0
      (List.replicate h.benches none)).1, q = []
    have e0 : (List.replicate h.benches none : List (Option Student)) = seatsOf h.benches [] :=
      (seatsOf_nil h.benches).symm
    have e1 : (0 : Nat) = (([] : List Student)).length := rfl
    rw [e0, e1]
    simpa using hstop

/-- Master characterization of the primary per-hall pass over a hall
sequence: the assignments are the concatenation, hall by hall, of the
blocks `mkAsgs hall_id 1 taken_h`, the per-hall `taken` lists fit their
capacities, they repartition the incoming queues, and if any student is
left over then every hall block is full. -/
theorem fillHalls_spec :
    ∀ (halls : List Hall) (subs : List (List Student)),
      ∃ takens : List (List Student),
        takens.length = halls.length ∧
        (fillHalls subs halls).1 =
          ((halls.zip takens).map (fun p => mkAsgs p.1.hall_id 1 p.2)).flatten ∧
        (∀ p ∈ halls.zip takens, p.2.length ≤ p.1.benches) ∧
        (takens.flatten ++ (fillHalls subs halls).2.flatten).Perm subs.flatten ∧
        ((fillHalls subs halls).2.flatten ≠ [] →
          ∀ p ∈ halls.zip takens, p.2.length = p.1.benches) := by
  intro halls
  induction halls with
  | nil =>
    intro subs
    refine ⟨[], rfl, rfl, by simp, by simp [fillHalls], by simp⟩
  | cons h hs ih =>
    intro subs
    obtain ⟨taken1, hblock, htle1, hperm1, hstop1⟩ := fillHall_spec subs h
    obtain ⟨takens2, hlen2, hblocks2, htle2, hperm2, hfull2⟩ := ih (fillHall subs h).1
    refine ⟨taken1 :: takens2, by simp [hlen2], ?_, ?_, ?_, ?_⟩
    · show (fillHall subs h).2 ++ (fillHalls (fillHall subs h).1 hs).1 = _
      rw [hblock, hblocks2]
      simp [List.zip_cons_cons]
    · intro p hp
      rcases List.mem_cons.mp (by simpa [List.zip_cons_cons] using hp) with rfl | hp2
      · exact htle1
      · exact htle2 p hp2
    · show ((taken1 :: takens2).flatten ++ (fillHalls (fillHall subs h).1 hs).2.flatten).Perm
        subs.flatten
      simp only [List.flatten_cons, List.append_assoc]
      exact (List.Perm.append_left taken1 hperm2).trans hperm1
    · show (fillHalls (fillHall subs h).1 hs).2.flatten ≠ [] → _
      intro hne p hp
      have hfl1 : (fillHall subs h).1.flatten ≠ [] := by
        intro hz
        rw [hz] at hperm2
        have hlen0 := hperm2.length_eq
        rw [List.length_append] at hlen0
        simp only [List.length_nil] at hlen0
        have hX : (fillHalls (fillHall subs h).1 hs).2.flatten.length = 0 := by omega
        exact hne (List.length_eq_zero.mp hX)
      have htk1full : taken1.length = h.benches := by
        rcases hstop1 with hfull | hempty
        · exact hfull
        · exact absurd (List.flatten_eq_nil_iff.mpr hempty) hfl1
      rcases List.mem_cons.mp (by simpa [List.zip_cons_cons] using hp) with rfl | hp2
      · exact htk1full
      · exact hfull2 hne p hp2

/-! ### The backfill pass is dead code -/

theorem backfillLoop_nil_remaining :
    ∀ (ps : List (String × Nat)) (used : List String), backfillLoop ps [] used = [] := by
  intro ps used
  cases ps with
  | nil => rfl
  | cons p ps2 => rfl

theorem backfillLoop_all_used :
    ∀ (ps : List (String × Nat)) (rem : List Student) (used : List String),
      (∀ p ∈ ps, posKey p.1 p.2 ∈ used) → backfillLoop ps rem used = [] := by
  intro ps
  induction ps with
  | nil => intro rem used _; rfl
  | cons p ps2 ih =>
    intro rem used hall
    cases rem with
    | nil => rfl
    | cons s rest =>
      have hp : posKey p.1 p.2 ∈ used := hall p (by simp)
      simp only [backfillLoop, hp, if_true]
      exact ih (s :: rest) used (fun q hq => hall q (by simp [hq]))

/-- When every hall block is full, the used-key set of the primary pass
covers every position key. -/
theorem primary_covers :
    ∀ (halls : List Hall) (takens : List (List Student)),
      takens.length = halls.length →
      (∀ p ∈ halls.zip takens, p.2.length = p.1.benches) →
      ∀ q ∈ allPositions halls,
        posKey q.1 q.2 ∈
          usedKeys (((halls.zip takens).map (fun p => mkAsgs p.1.hall_id 1 p.2)).flatten) := by
  intro halls
  induction halls with
  | nil => intro takens _ _ q hq; simp [allPositions] at hq
  | cons h hs ih =>
    intro takens hlen hfull q hq
    cases takens with
    | nil => simp at hlen
    | cons t ts =>
      simp only [List.zip_cons_cons, List.map_cons, List.flatten_cons] at hfull ⊢
      have htb : t.length = h.benches := hfull (h, t) (by simp)
      simp only [allPositions, List.flatMap_cons] at hq
      rw [usedKeys] at *
      rw [List.map_append]
      rcases List.mem_append.mp hq with hq1 | hq2
      · refine List.mem_append.mpr (Or.inl ?_)
        rw [show List.map (fun a => posKey a.hall_id a.bench_index_in_hall)
            (mkAsgs h.hall_id 1 t) = usedKeys (mkAsgs h.hall_id 1 t) from rfl,
          usedKeys_mkAsgs, htb]
        obtain ⟨b, hb, rfl⟩ := List.mem_map.mp hq1
        rw [List.mem_range] at hb
        exact List.mem_map.mpr ⟨b + 1, by rw [List.mem_range']; exact ⟨b, hb, by omega⟩, rfl⟩
      · refine List.mem_append.mpr (Or.inr ?_)
        have := ih ts (by simpa using hlen) (fun p hp => hfull p (by simp [hp])) q
          (by simpa [allPositions] using hq2)
        simpa [usedKeys] using this

/-- The backfill pass of `distributeBalanced` never places a student: if
any student is left over after the primary pass, every bench of every hall
is already occupied. -/
theorem distributeBalanced_eq_primary (shuffle : List Student → List Student)
    (pool : List Student) (halls : List Hall) :
    distributeBalanced shuffle pool halls = (primaryPass shuffle pool halls).1 := by
  have hun : distributeBalanced shuffle pool halls =
      (primaryPass shuffle pool halls).1 ++
        backfillLoop (allPositions halls) (primaryPass shuffle pool halls).2.flatten
          (usedKeys (primaryPass shuffle pool halls).1) := rfl
  rw [hun]
  obtain ⟨takens, hlen, hblocks, _, _, hfull⟩ :=
    fillHalls_spec halls (subjectQueues shuffle pool)
  by_cases hrem : (primaryPass shuffle pool halls).2.flatten = []
  · rw [hrem, backfillLoop_nil_remaining, List.append_nil]
  · rw [backfillLoop_all_used _ _ _ ?_, List.append_nil]
    intro q hq
    rw [show (primaryPass shuffle pool halls).1 = (fillHalls (subjectQueues shuffle pool) halls).1
      from rfl, hblocks]
    exact primary_covers halls takens hlen (hfull hrem) q hq

/-! ### The queues repartition the pool -/

theorem addToGroups_flatten_perm (k : String) (s : Student) :
    ∀ g : List (String × List Student),
      ((addToGroups g k s).map (fun kv => kv.2)).flatten.Perm
        ((g.map (fun kv => kv.2)).flatten ++ [s]) := by
  intro g
  induction g with
  | nil => simp [addToGroups]
  | cons kv rest ih =>
    by_cases hk : kv.1 = k
    · cases kv with
      | mk k2 l =>
        simp only at hk
        simp only [addToGroups, hk, if_true]
        simp only [List.map_cons, List.flatten_cons, List.append_assoc, List.cons_append,
          List.nil_append]
        exact List.Perm.append_left l (List.perm_append_singleton s _).symm
    · cases kv with
      | mk k2 l =>
        simp only at hk
        simp only [addToGroups, hk, if_false]
        simp only [List.map_cons, List.flatten_cons, List.append_assoc]
        exact List.Perm.append_left l (by simpa [List.append_assoc] using ih)

theorem groupBySubject_flatten_perm (pool : List Student) :
    ((groupBySubject pool).map (fun kv => kv.2)).flatten.Perm pool := by
  suffices h : ∀ (l : List Student) (g : List (String × List Student)),
      ((l.foldl (fun g2 s => addToGroups g2 (subjKey s) s) g).map (fun kv => kv.2)).flatten.Perm
        ((g.map (fun kv => kv.2)).flatten ++ l) by
    simpa using h pool []
  intro l
  induction l with
  | nil => intro g; simp
  | cons s rest ih =>
    intro g
    simp only [List.foldl_cons]
    refine (ih (addToGroups g (subjKey s) s)).trans ?_
    refine (List.Perm.append_right rest (addToGroups_flatten_perm (subjKey s) s g)).trans ?_
    simp [List.append_assoc]

theorem shuffled_groups_flatten_perm (shuffle : List Student → List Student)
    (hsh : ∀ l, (shuffle l).Perm l) :
    ∀ g : List (String × List Student),
      ((g.map (fun kv => (kv.1, shuffle kv.2))).map (fun kv => kv.2)).flatten.Perm
        ((g.map (fun kv => kv.2)).flatten) := by
  intro g
  induction g with
  | nil => simp
  | cons kv rest ih =>
    simp only [List.map_cons, List.flatten_cons]
    exact List.Perm.append (hsh kv.2) ih

/-- The subject queues of the engine repartition the student pool. -/
theorem subjectQueues_flatten_perm (shuffle : List Student → List Student)
    (hsh : ∀ l, (shuffle l).Perm l) (pool : List Student) :
    (subjectQueues shuffle pool).flatten.Perm pool := by
  unfold subjectQueues
  refine (List.Perm.flatten (List.Perm.map _ (stableSort_perm _ _))).trans ?_
  exact (shuffled_groups_flatten_perm shuffle hsh _).trans (groupBySubject_flatten_perm pool)

/-! ### Master lemma for `distributeBalanced` -/

/-- Everything the coverage claims need, in one statement: the engine's
output is a concatenation of per-hall contiguous blocks, the blocks fit
their halls, block students plus the leftover students repartition the
pool, and leftovers exist only when every block is full. -/
theorem distributeBalanced_master (shuffle : List Student → List Student)
    (pool : List Student) (halls : List Hall) (hsh : ∀ l, (shuffle l).Perm l) :
    ∃ (takens : List (List Student)) (rem : List Student),
      takens.length = halls.length ∧
      distributeBalanced shuffle pool halls =
        ((halls.zip takens).map (fun p => mkAsgs p.1.hall_id 1 p.2)).flatten ∧
      (∀ p ∈ halls.zip takens, p.2.length ≤ p.1.benches) ∧
      (takens.flatten ++ rem).Perm pool ∧
      (rem ≠ [] → ∀ p ∈ halls.zip takens, p.2.length = p.1.benches) := by
  obtain ⟨takens, hlen, hblocks, htle, hperm, hfull⟩ :=
    fillHalls_spec halls (subjectQueues shuffle pool)
  refine ⟨takens, (fillHalls (subjectQueues shuffle pool) halls).2.flatten, hlen, ?_, htle, ?_, hfull⟩
  · rw [distributeBalanced_eq_primary]
    exact hblocks
  · exact hperm.trans (subjectQueues_flatten_perm shuffle hsh pool)

/-! ### Aggregate facts about the block decomposition -/

theorem zipBlocks_map_student :
    ∀ (halls : List Hall) (takens : List (List Student)), takens.length = halls.length →
      ((((halls.zip takens).map (fun p => mkAsgs p.1.hall_id 1 p.2)).flatten).map
        (fun a => a.student)) = takens.flatten := by
  intro halls
  induction halls with
  | nil =>
    intro takens hlen
    simp at hlen
    subst hlen
    rfl
  | cons h hs ih =>
    intro takens hlen
    cases takens with
    | nil => simp at hlen
    | cons t ts =>
      simp only [List.zip_cons_cons, List.map_cons, List.flatten_cons, List.map_append]
      rw [mkAsgs_map_student, ih ts (by simpa using hlen)]

theorem zipBlocks_length :
    ∀ (halls : List Hall) (takens : List (List Student)), takens.length = halls.length →
      (((halls.zip takens).map (fun p => mkAsgs p.1.hall_id 1 p.2)).flatten).length =
        takens.flatten.length := by
  intro halls
  induction halls with
  | nil =>
    intro takens hlen
    simp at hlen
    subst hlen
    rfl
  | cons h hs ih =>
    intro takens hlen
    cases takens with
    | nil => simp at hlen
    | cons t ts =>
      simp only [List.zip_cons_cons, List.map_cons, List.flatten_cons, List.length_append]
      rw [mkAsgs_length, ih ts (by simpa using hlen)]

theorem zipBlocks_mem (halls : List Hall) (takens : List (List Student)) (a : Assignment)
    (ha : a ∈ ((halls.zip takens).map (fun p => mkAsgs p.1.hall_id 1 p.2)).flatten) :
    ∃ p ∈ halls.zip takens, a ∈ mkAsgs p.1.hall_id 1 p.2 := by
  obtain ⟨bl, hbl, ha2⟩ := List.mem_flatten.mp ha
  obtain ⟨p, hp, rfl⟩ := List.mem_map.mp hbl
  exact ⟨p, hp, ha2⟩

theorem takens_sum_of_full :
    ∀ (halls : List Hall) (takens : List (List Student)), takens.length = halls.length →
      (∀ p ∈ halls.zip takens, p.2.length = p.1.benches) →
      takens.flatten.length = (halls.map (fun h => h.benches)).sum := by
  intro halls
  induction halls with
  | nil =>
    intro takens hlen _
    simp at hlen
    subst hlen
    rfl
  | cons h hs ih =>
    intro takens hlen hfull
    cases takens with
    | nil => simp at hlen
    | cons t ts =>
      simp only [List.flatten_cons, List.length_append, List.map_cons, List.sum_cons]
      rw [hfull (h, t) (by simp [List.zip_cons_cons]),
        ih ts (by simpa using hlen) (fun p hp => hfull p (by simp [List.zip_cons_cons, hp]))]

theorem takens_sum_le :
    ∀ (halls : List Hall) (takens : List (List Student)), takens.length = halls.length →
      (∀ p ∈ halls.zip takens, p.2.length ≤ p.1.benches) →
      takens.flatten.length ≤ (halls.map (fun h => h.benches)).sum := by
  intro halls
  induction halls with
  | nil =>
    intro takens hlen _
    simp at hlen
    subst hlen
    simp
  | cons h hs ih =>
    intro takens hlen hle
    cases takens with
    | nil => simp at hlen
    | cons t ts =>
      simp only [List.flatten_cons, List.length_append, List.map_cons, List.sum_cons]
      have h1 := hle (h, t) (by simp [List.zip_cons_cons])
      have h2 := ih ts (by simpa using hlen)
        (fun p hp => hle p (by simp [List.zip_cons_cons, hp]))
      simp only at h1
      omega

theorem zipBlocks_hall_id_mem (halls : List Hall) (takens : List (List Student)) (a : Assignment)
    (ha : a ∈ ((halls.zip takens).map (fun p => mkAsgs p.1.hall_id 1 p.2)).flatten) :
    a.hall_id ∈ halls.map (fun h => h.hall_id) := by
  obtain ⟨p, hp, ha2⟩ := zipBlocks_mem halls takens a ha
  have h1 := (mkAsgs_mem p.1.hall_id 1 p.2 a ha2).1
  have h2 := (List.of_mem_zip hp).1
  exact List.mem_map.mpr ⟨p.1, h2, h1.symm⟩

theorem zipBlocks_pairs_nodup :
    ∀ (halls : List Hall) (takens : List (List Student)), takens.length = halls.length →
      ((halls.map (fun h => h.hall_id)).Nodup) →
      ((((halls.zip takens).map (fun p => mkAsgs p.1.hall_id 1 p.2)).flatten).map
        (fun a => (a.hall_id, a.bench_index_in_hall))).Nodup := by
  intro halls
  induction halls with
  | nil =>
    intro takens hlen _
    simp at hlen
    subst hlen
    simp
  | cons h hs ih =>
    intro takens hlen hids
    cases takens with
    | nil => simp at hlen
    | cons t ts =>
      simp only [List.zip_cons_cons, List.map_cons, List.flatten_cons, List.map_append]
      rw [List.nodup_append]
      simp only [List.map_cons, List.nodup_cons] at hids
      refine ⟨?_, ih ts (by simpa using hlen) hids.2, ?_⟩
      · rw [mkAsgs_map_pair]
        refine List.Nodup.map ?_ (List.nodup_range' 1 t.length)
        intro x y hxy
        simpa using congrArg Prod.snd hxy
      · intro x hx hy
        obtain ⟨a, ha, rfl⟩ := List.mem_map.mp hx
        obtain ⟨b2, hb2, hb2eq⟩ := List.mem_map.mp hy
        have hxa := (mkAsgs_mem h.hall_id 1 t a ha).1
        have hyb := zipBlocks_hall_id_mem hs ts b2 hb2
        have he2 : b2.hall_id = a.hall_id := congrArg Prod.fst hb2eq
        rw [he2, hxa] at hyb
        exact hids.1 hyb

theorem mem_zip_of_mem_left :
    ∀ {α β : Type} (l1 : List α) (l2 : List β) (a : α), l2.length = l1.length → a ∈ l1 →
      ∃ b, (a, b) ∈ l1.zip l2 := by
  intro α β l1
  induction l1 with
  | nil => intro l2 a _ ha; simp at ha
  | cons x xs ih =>
    intro l2 a hlen ha
    cases l2 with
    | nil => simp at hlen
    | cons y ys =>
      rcases List.mem_cons.mp ha with rfl | ha2
      · exact ⟨y, by simp [List.zip_cons_cons]⟩
      · obtain ⟨b, hb⟩ := ih ys a (by simpa using hlen) ha2
        exact ⟨b, by simp [List.zip_cons_cons, hb]⟩

/-- Every assignment of the engine names a hall of the input and a bench
within its capacity. -/
theorem distribute_mem_range (shuffle : List Student → List Student)
    (pool : List Student) (halls : List Hall) (hsh : ∀ l, (shuffle l).Perm l) :
    ∀ a ∈ distributeBalanced shuffle pool halls, ∃ h ∈ halls,
      a.hall_id = h.hall_id ∧ 1 ≤ a.bench_index_in_hall ∧ a.bench_index_in_hall ≤ h.benches := by
  obtain ⟨takens, rem, hlen, heq, htle, _, _⟩ :=
    distributeBalanced_master shuffle pool halls hsh
  intro a ha
  rw [heq] at ha
  obtain ⟨p, hp, ha2⟩ := zipBlocks_mem halls takens a ha
  obtain ⟨hmem1, _⟩ := List.of_mem_zip hp
  obtain ⟨hid, hb1, hb2⟩ := mkAsgs_mem p.1.hall_id 1 p.2 a ha2
  have h3 := htle p hp
  exact ⟨p.1, hmem1, hid, hb1, by omega⟩

/-- Specialization of the master lemma to a single hall. -/
theorem distribute_single_hall (shuffle : List Student → List Student)
    (pool : List Student) (h : Hall) (hsh : ∀ l, (shuffle l).Perm l) :
    ∃ (taken rem : List Student),
      distributeBalanced shuffle pool [h] = mkAsgs h.hall_id 1 taken ∧
      taken.length ≤ h.benches ∧
      (taken ++ rem).Perm pool ∧
      (rem ≠ [] → taken.length = h.benches) := by
  obtain ⟨takens, rem, hlen, heq, htle, hperm, hfull⟩ :=
    distributeBalanced_master shuffle pool [h] hsh
  cases takens with
  | nil => simp at hlen
  | cons t ts =>
    cases ts with
    | nil =>
      refine ⟨t, rem, ?_, ?_, ?_, ?_⟩
      · rw [heq]
        simp [List.zip_cons_cons]
      · exact htle (h, t) (by simp [List.zip_cons_cons])
      · simpa using hperm
      · intro hne
        exact hfull hne (h, t) (by simp [List.zip_cons_cons])
    | cons t2 ts2 => simp at hlen

/-- Per-hall filter characterization of the block decomposition, for halls
with pairwise distinct ids. -/
theorem filter_zipBlocks :
    ∀ (halls : List Hall) (takens : List (List Student)), takens.length = halls.length →
      ((halls.map (fun h => h.hall_id)).Nodup) →
      ∀ p ∈ halls.zip takens,
        (((halls.zip takens).map (fun q => mkAsgs q.1.hall_id 1 q.2)).flatten).filter
          (fun a => a.hall_id == p.1.hall_id) = mkAsgs p.1.hall_id 1 p.2 := by
  intro halls
  induction halls with
  | nil => intro takens _ _ p hp; simp at hp
  | cons h hs ih =>
    intro takens hlen hids p hp
    cases takens with
    | nil => simp at hlen
    | cons t ts =>
      simp only [List.map_cons, List.nodup_cons] at hids
      simp only [List.zip_cons_cons, List.map_cons, List.flatten_cons, List.filter_append]
      rcases List.mem_cons.mp (by simpa [List.zip_cons_cons] using hp) with rfl | hp2
      · have h1 : (mkAsgs h.hall_id 1 t).filter (fun a => a.hall_id == h.hall_id) =
            mkAsgs h.hall_id 1 t := by
          rw [List.filter_eq_self]
          intro a ha
          have := (mkAsgs_mem h.hall_id 1 t a ha).1
          simp [this]
        have h2 : (((hs.zip ts).map (fun q => mkAsgs q.1.hall_id 1 q.2)).flatten).filter
            (fun a => a.hall_id == h.hall_id) = [] := by
          rw [List.filter_eq_nil_iff]
          intro a ha
          have hmem := zipBlocks_hall_id_mem hs ts a ha
          intro hbeq
          rw [beq_iff_eq] at hbeq
          rw [hbeq] at hmem
          exact hids.1 hmem
        rw [h1, h2, List.append_nil]
      · have hne : h.hall_id ≠ p.1.hall_id := by
          intro he
          have := (List.of_mem_zip hp2).1
          exact hids.1 (by rw [he]; exact List.mem_map.mpr ⟨p.1, this, rfl⟩)
        have h1 : (mkAsgs h.hall_id 1 t).filter (fun a => a.hall_id == p.1.hall_id) = [] := by
          rw [List.filter_eq_nil_iff]
          intro a ha
          have := (mkAsgs_mem h.hall_id 1 t a ha).1
          simp [this, hne]
        rw [h1, List.nil_append]
        exact ih ts (by simpa using hlen) hids.2 p hp2

/-! ### Claim theorems about the distribution engine -/

/-- Shorthand for a test student whose name equals the register number. -/
def mkStu (r subj : String) : Student :=
  { register_number := r, student_name := r, subject_code := subj }

@[simp] theorem mkStu_subject_code (r subj : String) : (mkStu r subj).subject_code = subj := rfl

/-- Claim C1: for every student pool and every sequence of halls (positive
bench counts, distinct hall ids per the data model's Hall invariant), and
for every outcome of the internal shuffles, `distributeBalanced` returns
an assignment set whose size is `min(pool.size, sum of benches)`, in which
every assignment's bench index lies in `[1, benches]` of its hall, and no
`(hall, bench)` position is assigned more than one student. -/
theorem distribution_coverage (shuffle : List Student → List Student)
    (hsh : ∀ l, (shuffle l).Perm l) (pool : List Student) (halls : List Hall)
    (hpos : ∀ h ∈ halls, 0 < h.benches)
    (hids : (halls.map (fun h => h.hall_id)).Nodup) :
    (distributeBalanced shuffle pool halls).length =
      min pool.length ((halls.map (fun h => h.benches)).sum) ∧
    (∀ a ∈ distributeBalanced shuffle pool halls, ∃ h ∈ halls,
      a.hall_id = h.hall_id ∧ 1 ≤ a.bench_index_in_hall ∧ a.bench_index_in_hall ≤ h.benches) ∧
    ((distributeBalanced shuffle pool halls).map
      (fun a => (a.hall_id, a.bench_index_in_hall))).Nodup := by
  obtain ⟨takens, rem, hlen, heq, htle, hperm, hfull⟩ :=
    distributeBalanced_master shuffle pool halls hsh
  refine ⟨?_, distribute_mem_range shuffle pool halls hsh, ?_⟩
  · rw [heq, zipBlocks_length halls takens hlen]
    have htot := hperm.length_eq
    rw [List.length_append] at htot
    have hle := takens_sum_le halls takens hlen htle
    by_cases hrem : rem = []
    · subst hrem
      rw [List.length_nil] at htot
      omega
    · have hfl := takens_sum_of_full halls takens hlen (hfull hrem)
      omega
  · rw [heq]
    exact zipBlocks_pairs_nodup halls takens hlen hids

/-- Witness for C1: two students of different subjects into one hall of 3
benches; the identity shuffle is a permutation, and the assignment count
is `min 2 3 = 2`. -/
theorem distribution_coverage_witness :
    (∀ l : List Student, (id l).Perm l) ∧
    (∀ h ∈ [({ hall_id := "H", benches := 3, rows := 1, cols := 3 } : Hall)], 0 < h.benches) ∧
    (distributeBalanced id [mkStu "A" "S1", mkStu "B" "S2"]
      [{ hall_id := "H", benches := 3, rows := 1, cols := 3 }]).length = 2 := by
  refine ⟨fun l => List.Perm.refl l, by decide, ?_⟩
  have h := distribution_coverage id (fun l => List.Perm.refl l)
    [mkStu "A" "S1", mkStu "B" "S2"]
    [{ hall_id := "H", benches := 3, rows := 1, cols := 3 }] (by decide) (by decide)
  rw [h.1]
  decide

/-- The five-student one-subject pool of C4's concrete example. -/
def poolFiveOneSubject : List Student :=
  [mkStu "A" "S1", mkStu "B" "S1", mkStu "C" "S1", mkStu "D" "S1", mkStu "E" "S1"]

/-- The three-bench hall of C4's concrete example. -/
def hallThree : Hall := { hall_id := "H", benches := 3, rows := 1, cols := 3 }

/-- Claim C4: when the pool exceeds total capacity, `distributeBalanced`
still returns normally (it is a total function here) with exactly
`total capacity` assignments, so exactly `pool.size - capacity` students
are left out of the result; the left-out students are exactly a complement
of the assigned ones inside the pool.  In particular, for one hall of
capacity 3 and a 5-student single-subject pool and for every outcome of
the internal shuffles: exactly 3 students sit on benches 1,2,3 (no bench
left empty) and exactly 2 students of the pool appear in no assignment. -/
theorem capacity_overflow_drops (shuffle : List Student → List Student)
    (hsh : ∀ l, (shuffle l).Perm l) :
    (∀ (pool : List Student) (halls : List Hall),
      (halls.map (fun h => h.benches)).sum < pool.length →
      (distributeBalanced shuffle pool halls).length = (halls.map (fun h => h.benches)).sum ∧
      ∃ dropped : List Student,
        dropped.length = pool.length - (halls.map (fun h => h.benches)).sum ∧
        ((distributeBalanced shuffle pool halls).map (fun a => a.student) ++ dropped).Perm
          pool) ∧
    ((distributeBalanced shuffle poolFiveOneSubject [hallThree]).map
        (fun a => a.bench_index_in_hall) = [1, 2, 3] ∧
      (distributeBalanced shuffle poolFiveOneSubject [hallThree]).length = 3 ∧
      ∃ dropped : List Student, dropped.length = 2 ∧
        ((distributeBalanced shuffle poolFiveOneSubject [hallThree]).map (fun a => a.student) ++
          dropped).Perm poolFiveOneSubject) := by
  constructor
  · intro pool halls hover
    obtain ⟨takens, rem, hlen, heq, htle, hperm, hfull⟩ :=
      distributeBalanced_master shuffle pool halls hsh
    have htot := hperm.length_eq
    rw [List.length_append] at htot
    have hle := takens_sum_le halls takens hlen htle
    have hrem : rem ≠ [] := by
      intro hz
      subst hz
      rw [List.length_nil] at htot
      omega
    have hfl := takens_sum_of_full halls takens hlen (hfull hrem)
    refine ⟨?_, rem, by omega, ?_⟩
    · rw [heq, zipBlocks_length halls takens hlen]
      omega
    · rw [heq, zipBlocks_map_student halls takens hlen]
      exact hperm
  · obtain ⟨taken, rem, heq, htle, hperm, hfull⟩ :=
      distribute_single_hall shuffle poolFiveOneSubject hallThree hsh
    have htot := hperm.length_eq
    rw [List.length_append] at htot
    have hpool : poolFiveOneSubject.length = 5 := by decide
    rw [hpool] at htot
    have hb : hallThree.benches = 3 := rfl
    rw [hb] at htle hfull
    have hrem : rem ≠ [] := by
      intro hz
      subst hz
      rw [List.length_nil] at htot
      omega
    have htk3 : taken.length = 3 := hfull hrem
    refine ⟨?_, ?_, rem, by omega, ?_⟩
    · rw [heq, mkAsgs_map_bench, htk3]
      rfl
    · rw [heq, mkAsgs_length, htk3]
    · rw [heq, mkAsgs_map_student]
      exact hperm

/-- Witness for C4 at the identity shuffle: the concrete 5-into-3 example. -/
theorem capacity_overflow_drops_witness :
    (∀ l : List Student, (id l).Perm l) ∧
    (distributeBalanced id poolFiveOneSubject [hallThree]).map
      (fun a => a.bench_index_in_hall) = [1, 2, 3] := by
  exact ⟨fun l => List.Perm.refl l,
    (capacity_overflow_drops id (fun l => List.Perm.refl l)).2.1⟩

/-- Claim C9: for every pool, hall sequence (distinct hall ids) and shuffle
outcome, the primary pass fills each hall contiguously from bench 1 (its
assignments for a hall are exactly benches `1..k` for some `k` within
capacity); if unplaced students remain after the primary pass then every
bench of every hall is occupied (`k = benches` everywhere); and the
backfill pass places no student, so the engine's result is exactly the
primary pass. -/
theorem primary_contiguous_backfill_dead (shuffle : List Student → List Student)
    (pool : List Student) (halls : List Hall)
    (hids : (halls.map (fun h => h.hall_id)).Nodup) :
    (∀ h ∈ halls, ∃ k, k ≤ h.benches ∧
      (((primaryPass shuffle pool halls).1.filter
        (fun a => a.hall_id == h.hall_id)).map (fun a => a.bench_index_in_hall)) =
        List.range' 1 k) ∧
    ((primaryPass shuffle pool halls).2.flatten ≠ [] →
      ∀ h ∈ halls,
        (((primaryPass shuffle pool halls).1.filter
          (fun a => a.hall_id == h.hall_id)).map (fun a => a.bench_index_in_hall)) =
          List.range' 1 h.benches) ∧
    backfillLoop (allPositions halls) (primaryPass shuffle pool halls).2.flatten
      (usedKeys (primaryPass shuffle pool halls).1) = [] ∧
    distributeBalanced shuffle pool halls = (primaryPass shuffle pool halls).1 := by
  obtain ⟨takens, hlen, hblocks, htle, hperm, hfull⟩ :=
    fillHalls_spec halls (subjectQueues shuffle pool)
  have hpb : (primaryPass shuffle pool halls).1 =
      ((halls.zip takens).map (fun p => mkAsgs p.1.hall_id 1 p.2)).flatten := hblocks
  have heqp := distributeBalanced_eq_primary shuffle pool halls
  refine ⟨?_, ?_, ?_, heqp⟩
  · intro h hh
    obtain ⟨t, ht⟩ := mem_zip_of_mem_left halls takens h hlen hh
    refine ⟨t.length, htle (h, t) ht, ?_⟩
    rw [hpb, filter_zipBlocks halls takens hlen hids (h, t) ht, mkAsgs_map_bench]
  · intro hne h hh
    obtain ⟨t, ht⟩ := mem_zip_of_mem_left halls takens h hlen hh
    rw [hpb, filter_zipBlocks halls takens hlen hids (h, t) ht, mkAsgs_map_bench]
    rw [hfull hne (h, t) ht]
  · have hsum : (primaryPass shuffle pool halls).1 ++
        backfillLoop (allPositions halls) (primaryPass shuffle pool halls).2.flatten
          (usedKeys (primaryPass shuffle pool halls).1) =
        (primaryPass shuffle pool halls).1 := by
      rw [show (primaryPass shuffle pool halls).1 ++
          backfillLoop (allPositions halls) (primaryPass shuffle pool halls).2.flatten
            (usedKeys (primaryPass shuffle pool halls).1) =
          distributeBalanced shuffle pool halls from rfl]
      exact heqp
    have h2 : (primaryPass shuffle pool halls).1 ++
        backfillLoop (allPositions halls) (primaryPass shuffle pool halls).2.flatten
          (usedKeys (primaryPass shuffle pool halls).1) =
        (primaryPass shuffle pool halls).1 ++ [] := by
      rw [List.append_nil]
      exact hsum
    exact List.append_cancel_left h2

/-- Witness for C9 at a concrete instance with distinct hall ids. -/
theorem primary_contiguous_backfill_dead_witness :
    ((([{ hall_id := "H", benches := 2, rows := 1, cols := 2 },
        { hall_id := "K", benches := 2, rows := 1, cols := 2 }] : List Hall).map
        (fun h => h.hall_id)).Nodup) ∧
    distributeBalanced id [mkStu "A" "S1", mkStu "B" "S2", mkStu "C" "S1"]
        [{ hall_id := "H", benches := 2, rows := 1, cols := 2 },
         { hall_id := "K", benches := 2, rows := 1, cols := 2 }] =
      (primaryPass id [mkStu "A" "S1", mkStu "B" "S2", mkStu "C" "S1"]
        [{ hall_id := "H", benches := 2, rows := 1, cols := 2 },
         { hall_id := "K", benches := 2, rows := 1, cols := 2 }]).1 := by
  refine ⟨by decide, ?_⟩
  exact (primary_contiguous_backfill_dead id
    [mkStu "A" "S1", mkStu "B" "S2", mkStu "C" "S1"]
    [{ hall_id := "H", benches := 2, rows := 1, cols := 2 },
     { hall_id := "K", benches := 2, rows := 1, cols := 2 }] (by decide)).2.2.2

theorem mkAsgs_map_benchFn (hid : String) (f : Nat → Nat) :
    ∀ (b : Nat) (l : List Student),
      (mkAsgs hid b l).map (fun a => f a.bench_index_in_hall) = (List.range' b l.length).map f := by
  intro b l
  induction l generalizing b with
  | nil => rfl
  | cons s rest ih => simp [mkAsgs, ih, List.range'_succ]

/-- The three-student one-subject pool of C5's concrete example. -/
def poolThreeOneSubject : List Student := [mkStu "A" "S1", mkStu "B" "S1", mkStu "C" "S1"]

/-- The ten-bench five-column hall of C5's concrete example. -/
def hallTenFiveCols : Hall := { hall_id := "H", benches := 10, rows := 2, cols := 5 }

/-- Claim C5: the default (and `'odd'`) allocator transforms each hall to
effective `benches' = ceil(benches/2)` and `cols' = ceil(cols/2)` before
distribution, and remaps each assignment's bench index `i` to physical
bench `(i-1)*2 + 1` — hence every physical bench is odd and within the
hall's real capacity.  For the example hall with 10 benches and 5 columns,
the effective capacity is 5 (with 3 effective columns), and a 3-student
pool is assigned physical benches 1, 3, 5 for every shuffle outcome. -/
theorem odd_allocator_layout (shuffle : List Student → List Student)
    (hsh : ∀ l, (shuffle l).Perm l) :
    (∀ h : Hall, oddHallTransform h =
      { hall_id := h.hall_id, benches := jsCeilDiv h.benches 2, rows := h.rows,
        cols := jsCeilDiv h.cols 2 }) ∧
    (∀ (pool : List Student) (halls : List Hall),
      ∀ a ∈ allocateOddLayout shuffle pool halls, ∃ h ∈ halls,
        a.hall_id = h.hall_id ∧
        ∃ i, 1 ≤ i ∧ i ≤ jsCeilDiv h.benches 2 ∧ a.bench_number = (i - 1) * 2 + 1 ∧
          a.bench_number % 2 = 1 ∧ a.bench_number ≤ h.benches) ∧
    ((oddHallTransform hallTenFiveCols).benches = 5 ∧
      (oddHallTransform hallTenFiveCols).cols = 3 ∧
      (allocateOddLayout shuffle poolThreeOneSubject [hallTenFiveCols]).map
        (fun a => a.bench_number) = [1, 3, 5]) := by
  refine ⟨fun h => rfl, ?_, rfl, rfl, ?_⟩
  · intro pool halls a ha
    have ha2 : a ∈ (distributeBalanced shuffle (shuffle pool)
        (halls.map oddHallTransform)).map
        (fun x => (⟨x.hall_id, (x.bench_index_in_hall - 1) * 2 + 1, x.student⟩ :
          BenchAssignment)) := ha
    obtain ⟨x, hx, rfl⟩ := List.mem_map.mp ha2
    obtain ⟨oh, hohmem, hid, hb1, hb2⟩ :=
      distribute_mem_range shuffle (shuffle pool) (halls.map oddHallTransform) hsh x hx
    obtain ⟨h, hh, rfl⟩ := List.mem_map.mp hohmem
    have hb2' : x.bench_index_in_hall ≤ (h.benches + 2 - 1) / 2 := hb2
    have hq := Nat.div_mul_le_self (h.benches + 2 - 1) 2
    refine ⟨h, hh, hid, x.bench_index_in_hall, hb1, hb2, rfl, ?_, ?_⟩
    · show ((x.bench_index_in_hall - 1) * 2 + 1) % 2 = 1
      omega
    · show (x.bench_index_in_hall - 1) * 2 + 1 ≤ h.benches
      omega
  · have hd0 : allocateOddLayout shuffle poolThreeOneSubject [hallTenFiveCols] =
        (distributeBalanced shuffle (shuffle poolThreeOneSubject)
          [{ hall_id := "H", benches := 5, rows := 2, cols := 3 }]).map
          (fun x => (⟨x.hall_id, (x.bench_index_in_hall - 1) * 2 + 1, x.student⟩ :
            BenchAssignment)) := rfl
    obtain ⟨taken, rem, heq, htle, hperm, hfull⟩ := distribute_single_hall shuffle
      (shuffle poolThreeOneSubject) { hall_id := "H", benches := 5, rows := 2, cols := 3 } hsh
    have hperm2 := hperm.trans (hsh poolThreeOneSubject)
    have htot := hperm2.length_eq
    rw [List.length_append] at htot
    have hp3 : poolThreeOneSubject.length = 3 := by decide
    rw [hp3] at htot
    have hrem : rem = [] := by
      by_contra hne
      have := hfull hne
      simp only at this htle
      omega
    subst hrem
    have htk3 : taken.length = 3 := by
      rw [List.length_nil] at htot
      omega
    rw [hd0, heq, List.map_map]
    show (mkAsgs "H" 1 taken).map (fun a => (a.bench_index_in_hall - 1) * 2 + 1) = [1, 3, 5]
    rw [mkAsgs_map_benchFn "H" (fun n => (n - 1) * 2 + 1) 1 taken, htk3]
    decide

/-- Witness for C5 at the identity shuffle. -/
theorem odd_allocator_layout_witness :
    (∀ l : List Student, (id l).Perm l) ∧
    (allocateOddLayout id poolThreeOneSubject [hallTenFiveCols]).map
      (fun a => a.bench_number) = [1, 3, 5] := by
  exact ⟨fun l => List.Perm.refl l,
    (odd_allocator_layout id (fun l => List.Perm.refl l)).2.2.2.2⟩

/-! ### Claim C6: round-robin sweeps and the adjacency example -/

theorem perm_two {α : Type} {a b : α} {l : List α} (h : l.Perm [a, b]) :
    l = [a, b] ∨ l = [b, a] := by
  have hlen := h.length_eq
  simp at hlen
  obtain ⟨x, t, rfl⟩ := List.exists_of_length_succ l hlen
  have hlen2 : t.length = 1 := by simpa using hlen
  obtain ⟨y, t2, rfl⟩ := List.exists_of_length_succ t hlen2
  have ht2 : t2 = [] := by simpa using hlen2
  subst ht2
  have hx : x ∈ [a, b] := h.mem_iff.mp (by simp)
  rcases List.mem_cons.mp hx with rfl | hx2
  · left
    have h2 : [y].Perm [b] := h.cons_inv
    rw [List.perm_singleton.mp h2]
  · have hxb : x = b := by simpa using hx2
    subst hxb
    right
    have h3 := h.trans (List.Perm.swap x a [])
    have h4 : [y].Perm [a] := h3.cons_inv
    rw [List.perm_singleton.mp h4]

/-- The two-subject four-student pool of C6's example. -/
def poolTwoSubjects : List Student :=
  [mkStu "A" "s1", mkStu "B" "s1", mkStu "C" "s2", mkStu "D" "s2"]

/-- The four-bench hall of C6's example. -/
def hallFour : Hall := { hall_id := "H", benches := 4, rows := 1, cols := 4 }

/-- Claim C6: one round-robin sweep takes at most one student per subject
group, so (for pairwise subject-disjoint queues, as the engine builds
them) the students seated by one sweep have pairwise distinct subject
keys; consequently, for the pool `[{A,s1},{B,s1},{C,s2},{D,s2}]` and a
single hall of 4 benches, for every outcome of the internal shuffles no
two adjacent benches are assigned students of the same subject. -/
theorem round_robin_sweep_distinct (shuffle : List Student → List Student)
    (hsh : ∀ l, (shuffle l).Perm l) :
    (∀ (cap : Nat) (subs : List (List Student)) (filled : List Student),
      filled.length ≤ cap → List.Pairwise subjDisjoint subs →
      ∃ taken : List Student,
        (sweepStep cap subs filled.length (seatsOf cap filled)).seats =
          seatsOf cap (filled ++ taken) ∧
        taken.Pairwise (fun s1 s2 => subjKey s1 ≠ subjKey s2)) ∧
    (∀ a1 ∈ distributeBalanced shuffle poolTwoSubjects [hallFour],
      ∀ a2 ∈ distributeBalanced shuffle poolTwoSubjects [hallFour],
        a2.bench_index_in_hall = a1.bench_index_in_hall + 1 →
        a1.student.subject_code ≠ a2.student.subject_code) := by
  constructor
  · intro cap subs filled hle hdis
    obtain ⟨taken, _, _, hseats, _, _, _, hpair⟩ := sweepStep_spec cap subs filled hle
    exact ⟨taken, hseats, (hpair hdis).2⟩
  · have hd0 : distributeBalanced shuffle poolTwoSubjects [hallFour] =
        (fillHalls (subjectQueues shuffle poolTwoSubjects) [hallFour]).1 ++
          backfillLoop (allPositions [hallFour])
            (fillHalls (subjectQueues shuffle poolTwoSubjects) [hallFour]).2.flatten
            (usedKeys (fillHalls (subjectQueues shuffle poolTwoSubjects) [hallFour]).1) := rfl
    rcases perm_two (hsh [mkStu "A" "s1", mkStu "B" "s1"]) with h1 | h1 <;>
      rcases perm_two (hsh [mkStu "C" "s2", mkStu "D" "s2"]) with h2 | h2
    · have hq : subjectQueues shuffle poolTwoSubjects =
          [[mkStu "A" "s1", mkStu "B" "s1"], [mkStu "C" "s2", mkStu "D" "s2"]] := by
        simp [subjectQueues, groupBySubject, addToGroups, subjKey, poolTwoSubjects,
          stableSort, insertLe, h1, h2]
      rw [hd0, hq]
      decide
    · have hq : subjectQueues shuffle poolTwoSubjects =
          [[mkStu "A" "s1", mkStu "B" "s1"], [mkStu "D" "s2", mkStu "C" "s2"]] := by
        simp [subjectQueues, groupBySubject, addToGroups, subjKey, poolTwoSubjects,
          stableSort, insertLe, h1, h2]
      rw [hd0, hq]
      decide
    · have hq : subjectQueues shuffle poolTwoSubjects =
          [[mkStu "B" "s1", mkStu "A" "s1"], [mkStu "C" "s2", mkStu "D" "s2"]] := by
        simp [subjectQueues, groupBySubject, addToGroups, subjKey, poolTwoSubjects,
          stableSort, insertLe, h1, h2]
      rw [hd0, hq]
      decide
    · have hq : subjectQueues shuffle poolTwoSubjects =
          [[mkStu "B" "s1", mkStu "A" "s1"], [mkStu "D" "s2", mkStu "C" "s2"]] := by
        simp [subjectQueues, groupBySubject, addToGroups, subjKey, poolTwoSubjects,
          stableSort, insertLe, h1, h2]
      rw [hd0, hq]
      decide

/-- Witness for C6: applying the adjacency statement at the identity
shuffle to the concrete neighbouring benches 1 and 2. -/
theorem round_robin_sweep_distinct_witness :
    (⟨"H", 1, mkStu "A" "s1"⟩ : Assignment).student.subject_code ≠
      (⟨"H", 2, mkStu "C" "s2"⟩ : Assignment).student.subject_code := by
  have h := (round_robin_sweep_distinct id (fun l => List.Perm.refl l)).2
  exact h ⟨"H", 1, mkStu "A" "s1"⟩ (by decide) ⟨"H", 2, mkStu "C" "s2"⟩ (by decide) (by decide)

/-! ### Injectivity of decimal rendering and of `pad4` -/

theorem toDigitsCore_acc (b : Nat) :
    ∀ (fuel n : Nat) (acc : List Char),
      Nat.toDigitsCore b fuel n acc = Nat.toDigitsCore b fuel n [] ++ acc := by
  intro fuel
  induction fuel with
  | zero => intro n acc; simp [Nat.toDigitsCore]
  | succ fuel ih =>
    intro n acc
    by_cases h : n / b = 0
    · simp [Nat.toDigitsCore, h]
    · simp only [Nat.toDigitsCore, h, if_false]
      rw [ih (n / b) (Nat.digitChar (n % b) :: acc), ih (n / b) [Nat.digitChar (n % b)]]
      simp

theorem toDigitsCore_eq_digits :
    ∀ (n : Nat), 0 < n → ∀ (fuel : Nat), n < fuel →
      Nat.toDigitsCore 10 fuel n [] = ((Nat.digits 10 n).map Nat.digitChar).reverse := by
  intro n
  induction n using Nat.strong_induction_on with
  | _ n ihn =>
    intro hn fuel hfuel
    cases fuel with
    | zero => omega
    | succ f =>
      by_cases h : n / 10 = 0
      · have hlt : n < 10 := by omega
        rw [Nat.digits_def' (by omega) hn, h]
        simp [Nat.toDigitsCore, h]
      · have hdiv_lt : n / 10 < n := Nat.div_lt_self hn (by omega)
        have hdiv_pos : 0 < n / 10 := Nat.pos_of_ne_zero h
        have hf : n / 10 < f := by omega
        simp only [Nat.toDigitsCore, h, if_false]
        rw [toDigitsCore_acc, ihn (n / 10) hdiv_lt hdiv_pos f hf]
        rw [Nat.digits_def' (by omega) hn]
        simp

theorem repr_data_eq_digits (n : Nat) (h : 0 < n) :
    (Nat.repr n).data = ((Nat.digits 10 n).map Nat.digitChar).reverse := by
  show (Nat.toDigits 10 n).asString.data = _
  unfold Nat.toDigits
  rw [toDigitsCore_eq_digits n h (n + 1) (by omega)]
  rfl

theorem digitChar_inj_lt (d1 d2 : Nat) (h1 : d1 < 10) (h2 : d2 < 10)
    (he : Nat.digitChar d1 = Nat.digitChar d2) : d1 = d2 := by
  have hd : ∀ x1 ∈ List.range 10, ∀ x2 ∈ List.range 10,
      Nat.digitChar x1 = Nat.digitChar x2 → x1 = x2 := by decide
  exact hd d1 (List.mem_range.mpr h1) d2 (List.mem_range.mpr h2) he

theorem map_digitChar_inj :
    ∀ (l1 l2 : List Nat), (∀ x ∈ l1, x < 10) → (∀ x ∈ l2, x < 10) →
      l1.map Nat.digitChar = l2.map Nat.digitChar → l1 = l2 := by
  intro l1
  induction l1 with
  | nil =>
    intro l2 _ _ he
    cases l2 with
    | nil => rfl
    | cons y ys => simp at he
  | cons x xs ih =>
    intro l2 hx hy he
    cases l2 with
    | nil => simp at he
    | cons y ys =>
      simp only [List.map_cons, List.cons.injEq] at he
      rw [digitChar_inj_lt x y (hx x (by simp)) (hy y (by simp)) he.1,
        ih ys (fun z hz => hx z (by simp [hz])) (fun z hz => hy z (by simp [hz])) he.2]

theorem repr_inj (m n : Nat) (he : Nat.repr m = Nat.repr n) : m = n := by
  have hed : (Nat.repr m).data = (Nat.repr n).data := congrArg String.data he
  rcases Nat.eq_zero_or_pos m with rfl | hm
  · rcases Nat.eq_zero_or_pos n with rfl | hn
    · rfl
    · rw [repr_data_eq_digits n hn] at hed
      have h0 : (Nat.repr 0).data = ['0'] := rfl
      rw [h0] at hed
      have hrev : (Nat.digits 10 n).map Nat.digitChar = ['0'] := by
        have := congrArg List.reverse hed
        simpa using this.symm
      have hdig : Nat.digits 10 n = [0] :=
        map_digitChar_inj (Nat.digits 10 n) [0]
          (fun x hx => Nat.digits_lt_base (by omega) hx) (by simp) (by simpa using hrev)
      have := Nat.ofDigits_digits 10 n
      rw [hdig] at this
      simp [Nat.ofDigits] at this
      omega
  · rcases Nat.eq_zero_or_pos n with rfl | hn
    · rw [repr_data_eq_digits m hm] at hed
      have h0 : (Nat.repr 0).data = ['0'] := rfl
      rw [h0] at hed
      have hrev : (Nat.digits 10 m).map Nat.digitChar = ['0'] := by
        have := congrArg List.reverse hed
        simpa using this
      have hdig : Nat.digits 10 m = [0] :=
        map_digitChar_inj (Nat.digits 10 m) [0]
          (fun x hx => Nat.digits_lt_base (by omega) hx) (by simp) (by simpa using hrev)
      have := Nat.ofDigits_digits 10 m
      rw [hdig] at this
      simp [Nat.ofDigits] at this
      omega
    · rw [repr_data_eq_digits m hm, repr_data_eq_digits n hn] at hed
      have hmap : (Nat.digits 10 m).map Nat.digitChar = (Nat.digits 10 n).map Nat.digitChar := by
        have := congrArg List.reverse hed
        simpa using this
      have hdig := map_digitChar_inj (Nat.digits 10 m) (Nat.digits 10 n)
        (fun x hx => Nat.digits_lt_base (by omega) hx)
        (fun x hx => Nat.digits_lt_base (by omega) hx) hmap
      exact Nat.digits_inj_iff.mp hdig

theorem repr_head_ne_zero (n : Nat) (h : 0 < n) : (Nat.repr n).data.head? ≠ some '0' := by
  rw [repr_data_eq_digits n h, List.head?_reverse]
  have hne : (Nat.digits 10 n).map Nat.digitChar ≠ [] := by
    simp [Nat.digits_ne_nil_iff_ne_zero.mpr h.ne']
  rw [List.getLast?_eq_getLast _ hne]
  have hnn : Nat.digits 10 n ≠ [] := Nat.digits_ne_nil_iff_ne_zero.mpr h.ne'
  have hgl : ((Nat.digits 10 n).map Nat.digitChar).getLast hne =
      Nat.digitChar ((Nat.digits 10 n).getLast hnn) := by
    rw [List.getLast_map]
  rw [hgl]
  have hlast := Nat.getLast_digit_ne_zero 10 h.ne'
  have hlt : (Nat.digits 10 n).getLast hnn < 10 :=
    Nat.digits_lt_base (by omega) (List.getLast_mem hnn)
  have hd : ∀ d ∈ List.range 10, d ≠ 0 → Nat.digitChar d ≠ '0' := by decide
  intro hcon
  exact hd ((Nat.digits 10 n).getLast hnn) (List.mem_range.mpr hlt) hlast (by
    injection hcon)

theorem pad4_data (n : Nat) :
    (pad4 n).data = List.replicate (4 - (Nat.repr n).data.length) '0' ++ (Nat.repr n).data := by
  show (if (Nat.repr n).data.length ≥ 4 then Nat.repr n
    else ⟨List.replicate (4 - (Nat.repr n).data.length) '0' ++ (Nat.repr n).data⟩).data = _
  split
  · rename_i h
    have h2 : 4 ≤ (Nat.repr n).data.length := h
    have h0 : 4 - (Nat.repr n).data.length = 0 := by omega
    rw [h0]
    simp
  · rfl

theorem zero_pad_cancel :
    ∀ (k1 k2 : Nat) (d1 d2 : List Char), d1.head? ≠ some '0' → d2.head? ≠ some '0' →
      List.replicate k1 '0' ++ d1 = List.replicate k2 '0' ++ d2 → d1 = d2 := by
  intro k1
  induction k1 with
  | zero =>
    intro k2 d1 d2 h1 h2 he
    cases k2 with
    | zero => simpa using he
    | succ j =>
      rw [List.replicate_succ] at he
      simp only [List.replicate, List.nil_append, List.cons_append] at he
      subst he
      simp at h1
  | succ j1 ih =>
    intro k2 d1 d2 h1 h2 he
    cases k2 with
    | zero =>
      rw [List.replicate_succ] at he
      simp only [List.replicate, List.nil_append, List.cons_append] at he
      rw [← he] at h2
      simp at h2
    | succ j2 =>
      rw [List.replicate_succ, List.replicate_succ] at he
      simp only [List.cons_append, List.cons.injEq] at he
      exact ih j2 d1 d2 h1 h2 he.2

theorem pad4_inj (m n : Nat) (hm : 0 < m) (hn : 0 < n) (he : pad4 m = pad4 n) : m = n := by
  have hed := congrArg String.data he
  rw [pad4_data, pad4_data] at hed
  have hd := zero_pad_cancel _ _ _ _ (repr_head_ne_zero m hm) (repr_head_ne_zero n hn) hed
  apply repr_inj
  cases hr1 : Nat.repr m with
  | mk l1 =>
    cases hr2 : Nat.repr n with
    | mk l2 =>
      rw [hr1, hr2] at hd
      simp only at hd
      rw [hd]

/-- No string whose first character is not `'S'` equals a synthesized
identifier. -/
theorem syn_id_head (j : Nat) (r : String) (h : r.data.head? ≠ some 'S') :
    r ≠ "SYN" ++ pad4 j := by
  intro he
  rw [he] at h
  rw [String.data_append] at h
  exact h rfl

/-- Two synthesized identifiers with distinct positive counters differ. -/
theorem syn_id_inj (i j : Nat) (hi : 0 < i) (hj : 0 < j) (hne : i ≠ j) :
    ("SYN" ++ pad4 i : String) ≠ "SYN" ++ pad4 j := by
  intro he
  have hed := congrArg String.data he
  rw [String.data_append, String.data_append] at hed
  have hpd : (pad4 i).data = (pad4 j).data := List.append_cancel_left hed
  apply hne
  apply pad4_inj i j hi hj
  cases hp1 : pad4 i with
  | mk l1 =>
    cases hp2 : pad4 j with
    | mk l2 =>
      rw [hp1, hp2] at hpd
      simp only at hpd
      rw [hpd]

/-- A synthesized identifier is never empty. -/
theorem syn_id_ne_empty (j : Nat) : ("SYN" ++ pad4 j : String) ≠ "" := by
  intro he
  have hed := congrArg String.data he
  rw [String.data_append] at hed
  simp at hed

/-! ### Dedup and synthetic-identifier facts -/

theorem dedupStudents_sub :
    ∀ (l : List Student) (seen : List String), ∀ s ∈ dedupStudents l seen, s ∈ l := by
  intro l
  induction l with
  | nil => intro seen s hs; simp [dedupStudents] at hs
  | cons x rest ih =>
    intro seen s hs
    by_cases h1 : x.register_number ≠ "" ∧ x.register_number ∈ seen
    · simp only [dedupStudents, if_pos h1] at hs
      exact List.mem_cons.mpr (Or.inr (ih seen s hs))
    · by_cases h2 : x.register_number ≠ ""
      · simp only [dedupStudents, if_neg h1, if_pos h2] at hs
        rcases List.mem_cons.mp hs with rfl | hs2
        · simp
        · exact List.mem_cons.mpr (Or.inr (ih _ s hs2))
      · simp only [dedupStudents, if_neg h1, if_neg h2] at hs
        rcases List.mem_cons.mp hs with rfl | hs2
        · simp
        · exact List.mem_cons.mpr (Or.inr (ih _ s hs2))

theorem dedupStudents_nodup :
    ∀ (l : List Student) (seen : List String),
      (((dedupStudents l seen).filter (fun s => !(s.register_number == ""))).map
        (fun s => s.register_number)).Nodup ∧
      (∀ s ∈ dedupStudents l seen, s.register_number ≠ "" → s.register_number ∉ seen) := by
  intro l
  induction l with
  | nil => intro seen; constructor <;> simp [dedupStudents]
  | cons x rest ih =>
    intro seen
    by_cases h1 : x.register_number ≠ "" ∧ x.register_number ∈ seen
    · simpa only [dedupStudents, if_pos h1] using ih seen
    · by_cases h2 : x.register_number ≠ ""
      · have hnotin : x.register_number ∉ seen := by
          intro hc
          exact h1 ⟨h2, hc⟩
        simp only [dedupStudents, if_neg h1, if_pos h2]
        obtain ⟨ihn, ihs⟩ := ih (x.register_number :: seen)
        constructor
        · rw [List.filter_cons]
          have hx : (!(x.register_number == "")) = true := by
            simp [h2]
          rw [if_pos hx]
          simp only [List.map_cons]
          rw [List.nodup_cons]
          refine ⟨?_, ihn⟩
          intro hc
          obtain ⟨s2, hs2, he2⟩ := List.mem_map.mp hc
          have hs2' := List.mem_filter.mp hs2
          have hs2ne : s2.register_number ≠ "" := by
            have := hs2'.2
            simpa using this
          have := ihs s2 hs2'.1 hs2ne
          rw [he2] at this
          exact this (by simp)
        · intro s hs hne
          rcases List.mem_cons.mp hs with rfl | hs2
          · exact hnotin
          · have := ihs s hs2 hne
            intro hc
            exact this (by simp [hc])
      · simp only [dedupStudents, if_neg h1, if_neg h2]
        obtain ⟨ihn, ihs⟩ := ih seen
        constructor
        · rw [List.filter_cons]
          have hx : (!(x.register_number == "")) = false := by
            simp at h2
            simp [h2]
          rw [if_neg (by simp [hx])]
          exact ihn
        · intro s hs hne
          rcases List.mem_cons.mp hs with rfl | hs2
          · exact absurd hne (by simpa using h2)
          · exact ihs s hs2 hne

theorem assignSynthetic_mem :
    ∀ (l : List Student) (c : Nat), ∀ s2 ∈ assignSynthetic c l,
      (s2 ∈ l ∧ s2.register_number ≠ "") ∨
      (∃ j, c ≤ j ∧ s2.register_number = "SYN" ++ pad4 j) := by
  intro l
  induction l with
  | nil => intro c s2 hs; simp [assignSynthetic] at hs
  | cons x rest ih =>
    intro c s2 hs
    by_cases hx : x.register_number = ""
    · simp only [assignSynthetic, if_pos hx] at hs
      rcases List.mem_cons.mp hs with rfl | hs2
      · exact Or.inr ⟨c, le_refl c, rfl⟩
      · rcases ih (c + 1) s2 hs2 with ⟨hm, hne⟩ | ⟨j, hj, he⟩
        · exact Or.inl ⟨by simp [hm], hne⟩
        · exact Or.inr ⟨j, by omega, he⟩
    · simp only [assignSynthetic, if_neg hx] at hs
      rcases List.mem_cons.mp hs with rfl | hs2
      · exact Or.inl ⟨by simp, hx⟩
      · rcases ih c s2 hs2 with ⟨hm, hne⟩ | ⟨j, hj, he⟩
        · exact Or.inl ⟨by simp [hm], hne⟩
        · exact Or.inr ⟨j, hj, he⟩

theorem assignSynthetic_nodup :
    ∀ (l : List Student) (c : Nat), 0 < c →
      ((l.filter (fun s => !(s.register_number == ""))).map
        (fun s => s.register_number)).Nodup →
      (∀ s ∈ l, s.register_number ≠ "" → ∀ j, c ≤ j → s.register_number ≠ "SYN" ++ pad4 j) →
      ((assignSynthetic c l).map (fun s => s.register_number)).Nodup ∧
      (∀ s2 ∈ assignSynthetic c l, s2.register_number ≠ "") := by
  intro l
  induction l with
  | nil => intro c _ _ _; constructor <;> simp [assignSynthetic]
  | cons x rest ih =>
    intro c hc hfil hsyn
    by_cases hx : x.register_number = ""
    · have hfil2 : ((rest.filter (fun s => !(s.register_number == ""))).map
          (fun s => s.register_number)).Nodup := by
        rw [List.filter_cons] at hfil
        rw [if_neg (by simp [hx])] at hfil
        exact hfil
      have hsyn2 : ∀ s ∈ rest, s.register_number ≠ "" → ∀ j, c + 1 ≤ j →
          s.register_number ≠ "SYN" ++ pad4 j := by
        intro s hs hne j hj
        exact hsyn s (by simp [hs]) hne j (by omega)
      obtain ⟨ihn, ihne⟩ := ih (c + 1) (by omega) hfil2 hsyn2
      simp only [assignSynthetic, if_pos hx]
      constructor
      · simp only [List.map_cons]
        rw [List.nodup_cons]
        refine ⟨?_, ihn⟩
        intro hcon
        obtain ⟨s2, hs2, he2⟩ := List.mem_map.mp hcon
        rcases assignSynthetic_mem rest (c + 1) s2 hs2 with ⟨hm, hne⟩ | ⟨j, hj, hej⟩
        · exact hsyn s2 (by simp [hm]) hne c (le_refl c) he2
        · rw [hej] at he2
          exact syn_id_inj c j hc (by omega) (by omega) he2.symm
      · intro s2 hs2
        rcases List.mem_cons.mp hs2 with rfl | hs3
        · exact syn_id_ne_empty c
        · exact ihne s2 hs3
    · have hfil2 : ((rest.filter (fun s => !(s.register_number == ""))).map
          (fun s => s.register_number)).Nodup ∧
          x.register_number ∉ ((rest.filter (fun s => !(s.register_number == ""))).map
            (fun s => s.register_number)) := by
        rw [List.filter_cons] at hfil
        rw [if_pos (by simp [hx])] at hfil
        simp only [List.map_cons] at hfil
        rw [List.nodup_cons] at hfil
        exact ⟨hfil.2, hfil.1⟩
      have hsyn2 : ∀ s ∈ rest, s.register_number ≠ "" → ∀ j, c ≤ j →
          s.register_number ≠ "SYN" ++ pad4 j := by
        intro s hs hne j hj
        exact hsyn s (by simp [hs]) hne j hj
      obtain ⟨ihn, ihne⟩ := ih c hc hfil2.1 hsyn2
      simp only [assignSynthetic, if_neg hx]
      constructor
      · simp only [List.map_cons]
        rw [List.nodup_cons]
        refine ⟨?_, ihn⟩
        intro hcon
        obtain ⟨s2, hs2, he2⟩ := List.mem_map.mp hcon
        rcases assignSynthetic_mem rest c s2 hs2 with ⟨hm, hne⟩ | ⟨j, hj, hej⟩
        · refine hfil2.2 ?_
          rw [← he2]
          exact List.mem_map.mpr ⟨s2, List.mem_filter.mpr ⟨hm, by simp [hne]⟩, rfl⟩
        · rw [hej] at he2
          exact hsyn x (by simp) hx j hj he2.symm
      · intro s2 hs2
        rcases List.mem_cons.mp hs2 with rfl | hs3
        · exact hx
        · exact ihne s2 hs3

/-- Claim C2, amended: the roster returned for one uploaded file has a
nonempty `register_number` on every record, and — provided no original
register collides with the synthesized range `SYN0001, SYN0002, …` —
these registers are pairwise distinct within that file's roster.  (The
claim as stated is false for multiple files: the handler concatenates the
per-file rosters without a cross-file dedup, and each file restarts the
synthetic counter, see the counterexample.) -/
theorem single_file_roster_unique (raw : List Row)
    (hsyn : ∀ s ∈ raw.map rowToStudent, s.register_number ≠ "" → ∀ j, 1 ≤ j →
      s.register_number ≠ "SYN" ++ pad4 j) :
    (∀ s ∈ readStudentsFromFile raw, s.register_number ≠ "") ∧
    ((readStudentsFromFile raw).map (fun s => s.register_number)).Nodup := by
  have hdd := dedupStudents_nodup (raw.map rowToStudent) []
  have hsyn2 : ∀ s ∈ dedupStudents (raw.map rowToStudent) [], s.register_number ≠ "" →
      ∀ j, 1 ≤ j → s.register_number ≠ "SYN" ++ pad4 j := by
    intro s hs
    exact hsyn s (dedupStudents_sub (raw.map rowToStudent) [] s hs)
  obtain ⟨hnodup, hne⟩ := assignSynthetic_nodup (dedupStudents (raw.map rowToStudent) []) 1
    (by omega) hdd.1 hsyn2
  have hperm : (readStudentsFromFile raw).Perm
      (assignSynthetic 1 (dedupStudents (raw.map rowToStudent) [])) := by
    show (sortStudents (assignSynthetic 1 (dedupStudents (raw.map rowToStudent) []))).Perm _
    exact stableSort_perm _ _
  constructor
  · intro s hs
    exact hne s (hperm.mem_iff.mp hs)
  · exact ((hperm.map (fun s => s.register_number)).nodup_iff).mpr hnodup

/-- Counterexample for C2 as stated: two uploaded files each containing the
same register `R1` produce a combined roster with a duplicated register. -/
theorem upload_roster_duplicate_counterexample :
    (uploadStudents [[[("register_number", "R1")]], [[("register_number", "R1")]]]).map
      (fun s => s.register_number) = ["R1", "R1"] ∧
    ¬ ((uploadStudents [[[("register_number", "R1")]], [[("register_number", "R1")]]]).map
      (fun s => s.register_number)).Nodup := by
  constructor
  · decide
  · decide

/-- Witness for C2's amended theorem on a concrete file. -/
theorem single_file_roster_unique_witness :
    ((readStudentsFromFile [[("register_number", "R2")], [("student_name", "X")]]).map
      (fun s => s.register_number)).Nodup := by
  refine (single_file_roster_unique [[("register_number", "R2")], [("student_name", "X")]]
    ?_).2
  intro s hs hne j hj
  have hraw : ([[("register_number", "R2")], [("student_name", "X")]] : List Row).map
      rowToStudent =
      [{ register_number := "R2", student_name := "", subject_code := "" },
       { register_number := "", student_name := "X", subject_code := "" }] := by decide
  rw [hraw] at hs
  rcases List.mem_cons.mp hs with rfl | hs2
  · exact syn_id_head j _ (by decide)
  · rcases List.mem_cons.mp hs2 with rfl | hs3
    · exact absurd rfl hne
    · simp at hs3

theorem assignSynthetic_getElem :
    ∀ (l : List Student) (c i : Nat) (s : Student), l[i]? = some s →
      (assignSynthetic c l)[i]? = some (
        if s.register_number = "" then
          { s with register_number := "SYN" ++ pad4 (c +
            ((l.take i).filter (fun t => t.register_number == "")).length) }
        else s) := by
  intro l
  induction l with
  | nil => intro c i s hs; simp at hs
  | cons x rest ih =>
    intro c i s hs
    cases i with
    | zero =>
      simp only [List.getElem?_cons_zero, Option.some.injEq] at hs
      subst hs
      by_cases hx : x.register_number = ""
      · simp [assignSynthetic, hx]
      · simp [assignSynthetic, hx]
    | succ i =>
      simp only [List.getElem?_cons_succ] at hs
      by_cases hx : x.register_number = ""
      · have hih := ih (c + 1) i s hs
        simp only [assignSynthetic, if_pos hx, List.getElem?_cons_succ]
        rw [hih]
        by_cases hsx : s.register_number = ""
        · simp only [if_pos hsx, Option.some.injEq]
          have hcnt : (((x :: rest).take (i + 1)).filter
              (fun t => t.register_number == "")).length =
              1 + ((rest.take i).filter (fun t => t.register_number == "")).length := by
            simp only [List.take_succ_cons, List.filter_cons]
            rw [if_pos (by simp [hx])]
            simp [Nat.add_comm]
          rw [hcnt]
          have harith : c + 1 + ((rest.take i).filter (fun t => t.register_number == "")).length =
              c + (1 + ((rest.take i).filter (fun t => t.register_number == "")).length) := by
            omega
          rw [harith]
        · simp [hsx]
      · have hih := ih c i s hs
        simp only [assignSynthetic, if_neg hx, List.getElem?_cons_succ]
        rw [hih]
        by_cases hsx : s.register_number = ""
        · simp only [if_pos hsx, Option.some.injEq]
          have hcnt : (((x :: rest).take (i + 1)).filter
              (fun t => t.register_number == "")).length =
              ((rest.take i).filter (fun t => t.register_number == "")).length := by
            simp only [List.take_succ_cons, List.filter_cons]
            rw [if_neg (by simp [hx])]
          rw [hcnt]
        · simp [hsx]

/-- Claim C7, amended: after dedup, the `j`-th record still missing an
identifier receives `SYN` followed by the counter `1 + (number of
missing-identifier records before it)`, zero-padded to 4 digits — i.e. the
ids `SYN0001, SYN0002, …` are assigned monotonically in the records'
original relative order; and provided no surviving original identifier
itself lies in the synthesized `SYN` range, no synthesized identifier
collides with any other identifier of the roster.  (Collisions with an
original register literally named like `SYN0001` are possible, see the
counterexample; the original claim's unconditional no-collision part is
false.) -/
theorem synthetic_identifier_assignment (parsed : List Student) :
    (∀ (i : Nat) (s : Student), (dedupStudents parsed [])[i]? = some s →
      (assignSynthetic 1 (dedupStudents parsed []))[i]? = some (
        if s.register_number = "" then
          { s with register_number := "SYN" ++ pad4 (1 +
            (((dedupStudents parsed []).take i).filter
              (fun t => t.register_number == "")).length) }
        else s)) ∧
    ((∀ s ∈ parsed, s.register_number ≠ "" → ∀ j, 1 ≤ j →
        s.register_number ≠ "SYN" ++ pad4 j) →
      ((assignSynthetic 1 (dedupStudents parsed [])).map
        (fun s => s.register_number)).Nodup) := by
  constructor
  · intro i s hs
    exact assignSynthetic_getElem (dedupStudents parsed []) 1 i s hs
  · intro hsyn
    have hdd := dedupStudents_nodup parsed []
    have hsyn2 : ∀ s ∈ dedupStudents parsed [], s.register_number ≠ "" →
        ∀ j, 1 ≤ j → s.register_number ≠ "SYN" ++ pad4 j := by
      intro s hs
      exact hsyn s (dedupStudents_sub parsed [] s hs)
    exact (assignSynthetic_nodup (dedupStudents parsed []) 1 (by omega) hdd.1 hsyn2).1

/-- Counterexample for C7 as stated: an original register literally named
`SYN0001` collides with the first synthesized identifier. -/
theorem synthetic_identifier_collision :
    (reconcileRoster [mkStu "SYN0001" "S",
      { register_number := "", student_name := "B", subject_code := "S" }]).map
      (fun s => s.register_number) = ["SYN0001", "SYN0001"] ∧
    ¬ ((reconcileRoster [mkStu "SYN0001" "S",
      { register_number := "", student_name := "B", subject_code := "S" }]).map
      (fun s => s.register_number)).Nodup := by
  constructor
  · decide
  · decide

/-- Witness for C7's amended theorem: the first missing-id record receives
`SYN0001`, and a roster without SYN-shaped originals gets distinct ids. -/
theorem synthetic_identifier_assignment_witness :
    (assignSynthetic 1 (dedupStudents
      [{ register_number := "", student_name := "B", subject_code := "S" }] []))[0]? =
      some { register_number := "SYN0001", student_name := "B", subject_code := "S" } ∧
    ((assignSynthetic 1 (dedupStudents [mkStu "R2" "S",
      { register_number := "", student_name := "B", subject_code := "S" }] [])).map
      (fun s => s.register_number)).Nodup := by
  constructor
  · have h := (synthetic_identifier_assignment
      [{ register_number := "", student_name := "B", subject_code := "S" }]).1 0
      { register_number := "", student_name := "B", subject_code := "S" } (by decide)
    exact h.trans (by decide)
  · refine (synthetic_identifier_assignment [mkStu "R2" "S",
      { register_number := "", student_name := "B", subject_code := "S" }]).2 ?_
    intro s hs hne j hj
    rcases List.mem_cons.mp hs with rfl | hs2
    · exact syn_id_head j _ (by decide)
    · rcases List.mem_cons.mp hs2 with rfl | hs3
      · exact absurd rfl hne
      · simp at hs3

/-! ### Trim idempotence and the fallback subject scan (claim C8) -/

theorem dropWhile_head_false {α : Type} (p : α → Bool) :
    ∀ (l : List α) (c : α), (l.dropWhile p).head? = some c → p c = false := by
  intro l
  induction l with
  | nil => intro c hc; simp at hc
  | cons x t ih =>
    intro c hc
    by_cases hx : p x = true
    · rw [List.dropWhile_cons_of_pos hx] at hc
      exact ih c hc
    · rw [List.dropWhile_cons_of_neg hx] at hc
      simp only [List.head?_cons, Option.some.injEq] at hc
      subst hc
      simpa using hx

theorem dropWhile_of_head_false {α : Type} (p : α → Bool) (l : List α)
    (h : ∀ c, l.head? = some c → p c = false) : l.dropWhile p = l := by
  cases l with
  | nil => rfl
  | cons x t =>
    have hx := h x rfl
    rw [List.dropWhile_cons_of_neg (by simp [hx])]

theorem isPrefix_head {α : Type} {l k : List α} (h : l <+: k) (hne : l ≠ []) :
    l.head? = k.head? := by
  obtain ⟨t, rfl⟩ := h
  cases l with
  | nil => exact absurd rfl hne
  | cons x t2 => rfl

theorem jsTrim_data_reverse (s : String) :
    (jsTrim s).data.reverse =
      (s.data.dropWhile Char.isWhitespace).reverse.dropWhile Char.isWhitespace := by
  show ((((s.data.dropWhile Char.isWhitespace).reverse.dropWhile
    Char.isWhitespace).reverse).asString).data.reverse = _
  rw [show ∀ l : List Char, l.asString.data = l from fun l => rfl]
  rw [List.reverse_reverse]

theorem jsTrim_head (s : String) :
    ∀ c, (jsTrim s).data.head? = some c → c.isWhitespace = false := by
  intro c hc
  have hL : (jsTrim s).data =
      ((s.data.dropWhile Char.isWhitespace).reverse.dropWhile Char.isWhitespace).reverse := rfl
  rw [hL] at hc
  have hsuf : (s.data.dropWhile Char.isWhitespace).reverse.dropWhile Char.isWhitespace <:+
      (s.data.dropWhile Char.isWhitespace).reverse := List.dropWhile_suffix _
  have hpre : ((s.data.dropWhile Char.isWhitespace).reverse.dropWhile
      Char.isWhitespace).reverse <+: s.data.dropWhile Char.isWhitespace := by
    have h2 := hsuf.reverse
    rwa [List.reverse_reverse] at h2
  have hne : ((s.data.dropWhile Char.isWhitespace).reverse.dropWhile
      Char.isWhitespace).reverse ≠ [] := by
    intro hz
    rw [hz] at hc
    simp at hc
  rw [isPrefix_head hpre hne] at hc
  exact dropWhile_head_false Char.isWhitespace s.data c hc

theorem jsTrim_idem (s : String) : jsTrim (jsTrim s) = jsTrim s := by
  have h1 : (jsTrim s).data.dropWhile Char.isWhitespace = (jsTrim s).data :=
    dropWhile_of_head_false _ _ (fun c hc => jsTrim_head s c hc)
  have h2 : (jsTrim s).data.reverse.dropWhile Char.isWhitespace = (jsTrim s).data.reverse := by
    refine dropWhile_of_head_false _ _ ?_
    intro c hc
    rw [jsTrim_data_reverse] at hc
    exact dropWhile_head_false Char.isWhitespace _ c hc
  show ((((jsTrim s).data.dropWhile Char.isWhitespace).reverse.dropWhile
    Char.isWhitespace).reverse).asString = jsTrim s
  rw [h1, h2, List.reverse_reverse]
  cases hts : jsTrim s with
  | mk l => rfl

/-- Modelled from the spec's words, for comparison with the source (C8):
take the first scanned value that is nonempty, at most 8 characters,
wholly alphanumeric, and not under a column whose header contains
`"name"`. -/
def specFallbackSubject (row : Row) : String :=
  ((row.find? (fun kv =>
      (jsTrim kv.2).data ≠ [] && (jsTrim kv.2).data.length ≤ 8 &&
      (jsTrim kv.2).data.all Char.isAlphanum &&
      !(jsIncludes (jsToLower kv.1) "name"))).map (fun kv => jsTrim kv.2)).getD ""

/-- Counterexample for C8 as stated: the source's fallback test
`/[A-Za-z0-9]/.test(v)` only requires the value to CONTAIN an
alphanumeric character, so the non-alphanumeric value `A-B` is selected
before the wholly alphanumeric `MA101` that the claim's reading would
pick. -/
theorem fallback_scan_counterexample :
    (parseStudentRowRobust [("c1", "A-B"), ("c2", "MA101")]).subject_code = "A-B" ∧
    specFallbackSubject [("c1", "A-B"), ("c2", "MA101")] = "MA101" ∧
    ("A-B" : String) ≠ "MA101" := by
  refine ⟨by decide, by decide, by decide⟩

/-- Claim C8, amended: when no course or subject column is identified, the
parser's subject code is the upper-cased trim of the first cell value that
is nonempty after trimming, at most 8 characters long, contains at least
one ASCII alphanumeric character, and is not under a column whose header
contains `"name"` (and is empty when no such value exists); no other value
is selected before such a one. -/
theorem fallback_subject_scan (row : Row)
    (hcourse : ∀ k ∈ row.map (fun kv => kv.1), courseColHint k = false)
    (hsubj : ∀ k ∈ row.map (fun kv => kv.1), subjColHint k = false) :
    ((∀ kv ∈ row, fallbackSubjectPred kv = false) →
      (parseStudentRowRobust row).subject_code = "") ∧
    (∀ (pre : List (String × String)) (kv : String × String) (post : List (String × String)),
      row = pre ++ kv :: post → fallbackSubjectPred kv = true →
      (∀ kv2 ∈ pre, fallbackSubjectPred kv2 = false) →
      (parseStudentRowRobust row).subject_code = jsToUpper (jsTrim kv.2)) := by
  have hc : (row.map (fun kv => kv.1)).find? courseColHint = none :=
    List.find?_eq_none.mpr (fun k hk => by simp [hcourse k hk])
  have hsu : (row.map (fun kv => kv.1)).find? subjColHint = none :=
    List.find?_eq_none.mpr (fun k hk => by simp [hsubj k hk])
  have hpr : (parseStudentRowRobust row).subject_code =
      jsToUpper (jsTrim (((row.find? fallbackSubjectPred).map
        (fun kv => jsTrim kv.2)).getD "")) := by
    simp only [parseStudentRowRobust, hc, hsu]
  constructor
  · intro hall
    have hf : row.find? fallbackSubjectPred = none :=
      List.find?_eq_none.mpr (fun kv hkv => by simp [hall kv hkv])
    rw [hpr, hf]
    rfl
  · intro pre kv post hrow hkv hpre
    have hf : row.find? fallbackSubjectPred = some kv := by
      rw [hrow, List.find?_append]
      have hfp : pre.find? fallbackSubjectPred = none :=
        List.find?_eq_none.mpr (fun kv2 hkv2 => by simp [hpre kv2 hkv2])
      rw [hfp]
      simp [List.find?_cons, hkv]
    rw [hpr, hf]
    show jsToUpper (jsTrim (jsTrim kv.2)) = jsToUpper (jsTrim kv.2)
    rw [jsTrim_idem]

/-- Witness for C8's amended theorem at a concrete row. -/
theorem fallback_subject_scan_witness :
    (parseStudentRowRobust [("c1", " "), ("c2", "cs101")]).subject_code = "CS101" := by
  have h := (fallback_subject_scan [("c1", " "), ("c2", "cs101")]
    (by decide) (by decide)).2 [("c1", " ")] ("c2", "cs101") [] rfl (by decide) (by decide)
  exact h.trans (by decide)

/-! ### Claim C10: hall list ordering -/

/-- Claim C10: `readHallListFromFile` returns the parsed hall records in
non-decreasing ordinal `hall_id` order (the JS `<` comparison on strings),
as a permutation of the rows parsed in file order - so halls are persisted
sorted by `hall_id` regardless of their order in the uploaded file. -/
theorem hall_list_sorted_by_id (defaultBenches : Int) (raw : List Row) :
    ((readHallListFromFile defaultBenches raw).Pairwise
      (fun a b2 => jsStrLt b2.hall_id a.hall_id = false)) ∧
    (readHallListFromFile defaultBenches raw).Perm (parsedHallRows defaultBenches raw) := by
  constructor
  · have h := @stableSort_pairwise RawHall
      (fun a b2 => !(jsStrLt b2.hall_id a.hall_id))
      (fun a b2 => notLt_total a.hall_id b2.hall_id)
      (fun a b2 c h1 h2 => notLt_trans h1 h2)
      (parsedHallRows defaultBenches raw)
    refine h.imp ?_
    intro a b2 hab
    simpa using hab
  · exact stableSort_perm _ _

end ExamCell
